import Mathlib

/-!
Verification of the erdle CADU / HRDL demultiplexing core.

This file embeds, as executable Lean definitions over byte lists
(bytes are natural numbers, with explicit reductions modulo powers of
two where the Go code works in fixed-width integers), the functions of
the busoc/erdle repository that the specification claims talk about:

* byte stuffing and unstuffing (`StuffBytes`, `UnstuffBytes` in
  `erdle.go` and `cmd/cadu2hrdl/rw.go`);
* the CADU frame reader (`vcduReader.Read` in `cmd/cadu2hrdl/rw.go`)
  together with the CRC-CCITT checksum (`cmd/cadu2hrdl/crc.go`);
* the HRDL packet scanner (`nextPacket`) and the reassembling reader
  (`hrdlReader.Read`) of `cmd/cadu2hrdl/rw.go`;
* the per-buffer validator (`validate` in `cmd/cadu2hrdl/rw.go`);
* the outbound Hadock framing (`writeHadock`, `conn.Write`);
* the HRDL header decoder (`decodeHRDLHeader` in `hrdl.go`);
* the HRDL body checksum (`hrdlSum.Write`).

Each claim of the specification is then stated and settled as a
theorem about these definitions.
-/

namespace Erdle

/-- The HRDL sync word `F8 2E 35 53` (`Word` in `erdle.go`). -/
def Word : List Nat := [0xf8, 0x2e, 0x35, 0x53]

/-- The stuff marker `F8 2E 35 AA` (`Stuff` in `erdle.go`). -/
def StuffMark : List Nat := [0xf8, 0x2e, 0x35, 0xaa]

/-- The CADU magic `1A CF FC 1D` (`Magic` in `erdle.go`). -/
def Magic : List Nat := [0x1a, 0xcf, 0xfc, 0x1d]

/-- `WordLen` of `erdle.go`. -/
def WordLen : Nat := 4

/-- `CaduBodyLen` of `erdle.go`. -/
def CaduBodyLen : Nat := 1008

/-- `pat` occurs in `l` starting at index `i`
(the bytes `l[i], …, l[i+|pat|-1]` spell `pat`). -/
def isSubAt (pat l : List Nat) (i : Nat) : Prop :=
  (l.drop i).take pat.length = pat

instance (pat l : List Nat) (i : Nat) : Decidable (isSubAt pat l i) := by
  unfold isSubAt; infer_instance

/-- `pat` occurs nowhere in `l`. -/
def noOcc (pat l : List Nat) : Prop :=
  ∀ i, ¬ isSubAt pat l i

/-- Go's `bytes.Index`: index of the first occurrence of `pat` in `l`,
or `none`.  (`bytes.Index` returns `-1` for no occurrence; the callers
embedded below only test for `≥ 0`, which `Option` models.) -/
def goIndex (pat : List Nat) : List Nat → Option Nat
  | [] => if pat = [] then some 0 else none
  | a :: t =>
      if (a :: t).take pat.length = pat then some 0
      else (goIndex pat t).map (· + 1)

theorem isSubAt_bound {pat l : List Nat} {i : Nat} (hp : pat ≠ [])
    (h : isSubAt pat l i) : i + pat.length ≤ l.length := by
  unfold isSubAt at h
  have hlen := congrArg List.length h
  simp [List.length_take, List.length_drop] at hlen
  have h1 : 1 ≤ pat.length := by
    cases pat with
    | nil => exact absurd rfl hp
    | cons a t => simp
  omega

theorem noOcc_iff_bounded (pat l : List Nat) :
    noOcc pat l ↔ ∀ i, i < l.length + 1 → ¬ isSubAt pat l i := by
  constructor
  · intro h i _
    exact h i
  · intro h i hcon
    by_cases hp : pat = []
    · subst hp
      exact h 0 (by omega) (by simp [isSubAt])
    · have hb := isSubAt_bound hp hcon
      have h1 : 1 ≤ pat.length := by
        cases pat with
        | nil => exact absurd rfl hp
        | cons a t => simp
      exact h i (by omega) hcon

instance (pat l : List Nat) : Decidable (noOcc pat l) :=
  decidable_of_iff _ (noOcc_iff_bounded pat l).symm

theorem isSubAt_take {pat l : List Nat} {i m : Nat}
    (h : isSubAt pat l i) (hm : i + pat.length ≤ m) :
    isSubAt pat (l.take m) i := by
  unfold isSubAt at h ⊢
  rw [List.drop_take, List.take_take, min_eq_left (by omega : pat.length ≤ m - i)]
  exact h

theorem isSubAt_of_take {pat l : List Nat} {i m : Nat}
    (h : isSubAt pat (l.take m) i) (hp : pat ≠ []) : isSubAt pat l i := by
  have hb := isSubAt_bound hp h
  rw [List.length_take] at hb
  have hb2 : i + pat.length ≤ m := by
    rcases Nat.le_total m l.length with hh | hh
    · rw [min_eq_left hh] at hb; omega
    · rw [min_eq_right hh] at hb; omega
  unfold isSubAt at h ⊢
  rw [List.drop_take, List.take_take, min_eq_left (by omega : pat.length ≤ m - i)] at h
  exact h

theorem isSubAt_append_left {pat l r : List Nat} {i : Nat}
    (h : isSubAt pat l i) (hp : pat ≠ []) : isSubAt pat (l ++ r) i := by
  have hb := isSubAt_bound hp h
  unfold isSubAt at h ⊢
  rw [List.drop_append_of_le_length (by omega)]
  rw [List.take_append_of_le_length (by rw [List.length_drop]; omega)]
  exact h

theorem isSubAt_append_right {pat l r : List Nat} {i : Nat}
    (h : isSubAt pat r i) : isSubAt pat (l ++ r) (l.length + i) := by
  unfold isSubAt at h ⊢
  rw [List.drop_append]
  exact h

theorem isSubAt_drop {pat l : List Nat} {k i : Nat} :
    isSubAt pat (l.drop k) i ↔ isSubAt pat l (k + i) := by
  unfold isSubAt
  rw [List.drop_drop]

theorem isSubAt_in_left {pat l r : List Nat} {i : Nat}
    (h : isSubAt pat (l ++ r) i) (hi : i + pat.length ≤ l.length) :
    isSubAt pat l i := by
  unfold isSubAt at h ⊢
  rw [List.drop_append_of_le_length (by omega)] at h
  rw [List.take_append_of_le_length (by rw [List.length_drop]; omega)] at h
  exact h

theorem goIndex_some_sub {pat l : List Nat} {i : Nat}
    (h : goIndex pat l = some i) : isSubAt pat l i := by
  induction l generalizing i with
  | nil =>
    unfold goIndex at h
    split at h
    · next hp =>
      simp at h
      subst h
      simp [isSubAt, hp]
    · simp at h
  | cons a t ih =>
    unfold goIndex at h
    split at h
    · next hp =>
      simp at h
      subst h
      simpa [isSubAt] using hp
    · simp [Option.map_eq_some'] at h
      obtain ⟨j, hj, hji⟩ := h
      subst hji
      have := ih hj
      unfold isSubAt at this ⊢
      simpa using this

theorem goIndex_some_min {pat l : List Nat} {i : Nat}
    (h : goIndex pat l = some i) : ∀ j, j < i → ¬ isSubAt pat l j := by
  induction l generalizing i with
  | nil =>
    unfold goIndex at h
    split at h
    · simp at h; omega
    · simp at h
  | cons a t ih =>
    unfold goIndex at h
    split at h
    · simp at h; omega
    · next hp =>
      simp [Option.map_eq_some'] at h
      obtain ⟨k, hk, hki⟩ := h
      subst hki
      intro j hj
      cases j with
      | zero =>
        intro hcon
        exact hp (by simpa [isSubAt] using hcon)
      | succ j =>
        intro hcon
        apply ih hk j (by omega)
        unfold isSubAt at hcon ⊢
        simpa using hcon

theorem goIndex_none {pat l : List Nat} (h : goIndex pat l = none) :
    noOcc pat l := by
  induction l with
  | nil =>
    unfold goIndex at h
    split at h
    · simp at h
    · next hp =>
      intro i hcon
      unfold isSubAt at hcon
      simp at hcon
      first
      | exact hp hcon.symm
      | exact hp hcon
  | cons a t ih =>
    unfold goIndex at h
    split at h
    · simp at h
    · next hp =>
      simp at h
      intro i
      cases i with
      | zero =>
        intro hcon
        exact hp (by simpa [isSubAt] using hcon)
      | succ i =>
        intro hcon
        apply ih h i
        unfold isSubAt at hcon ⊢
        simpa using hcon

theorem goIndex_eq_some {pat l : List Nat} {i : Nat}
    (hsub : isSubAt pat l i) (hmin : ∀ j, j < i → ¬ isSubAt pat l j) :
    goIndex pat l = some i := by
  cases hgi : goIndex pat l with
  | none => exact absurd hsub (goIndex_none hgi i)
  | some k =>
    have hk := goIndex_some_sub hgi
    have hkm := goIndex_some_min hgi
    rcases Nat.lt_trichotomy k i with h | h | h
    · exact absurd hk (hmin k h)
    · rw [h]
    · exact absurd hsub (hkm i h)

theorem goIndex_eq_none {pat l : List Nat} (h : noOcc pat l) :
    goIndex pat l = none := by
  cases hgi : goIndex pat l with
  | none => rfl
  | some k => exact absurd (goIndex_some_sub hgi) (h k)

theorem goIndex_some_bound {pat l : List Nat} {i : Nat} (hp : pat ≠ [])
    (h : goIndex pat l = some i) : i + pat.length ≤ l.length :=
  isSubAt_bound hp (goIndex_some_sub h)

theorem word_ne_nil : Word ≠ [] := by simp [Word]

theorem stuffMark_ne_nil : StuffMark ≠ [] := by simp [StuffMark]

theorem word_length : Word.length = 4 := by simp [Word]

theorem stuffMark_length : StuffMark.length = 4 := by simp [StuffMark]

/-- Little-endian `u32` read at offset `i`
(Go `binary.LittleEndian.Uint32(src[i:])`; the callers below only use it
where at least four bytes are present). -/
def leU32At (l : List Nat) (i : Nat) : Nat :=
  l.getD i 0 + 256 * l.getD (i + 1) 0 + 65536 * l.getD (i + 2) 0 +
    16777216 * l.getD (i + 3) 0

/-- The scan-and-escape loop of `StuffBytes` (`erdle.go`): `offset` is the
scan position in `bs` and `xs` the output accumulated so far.  Each found
occurrence of `Word` emits the bytes before it followed by the stuff
marker, and the scan resumes on the `0x53` byte of the occurrence. -/
def stuffLoop (bs : List Nat) (offset : Nat) (xs : List Nat) : List Nat :=
  match h : goIndex Word (bs.drop offset) with
  | none => xs ++ bs.drop offset
  | some ix =>
      stuffLoop bs (offset + ix + (WordLen - 1))
        (xs ++ (bs.drop offset).take ix ++ StuffMark)
termination_by bs.length - offset
decreasing_by
  have hb := goIndex_some_bound word_ne_nil h
  rw [word_length, List.length_drop] at hb
  simp [WordLen]
  omega

/-- `StuffBytes` of `erdle.go`: copy the first eight bytes (sync word and
length field) verbatim, then escape every occurrence of the sync word.
Go slices `bs[:8]`, which panics when the input is shorter: `none`. -/
def StuffBytes (bs : List Nat) : Option (List Nat) :=
  if bs.length < WordLen * 2 then none
  else some (stuffLoop bs (WordLen * 2) (bs.take (WordLen * 2)))

/-- The marker-removal loop of `UnstuffBytes` (`erdle.go`): for every
occurrence of the stuff marker, copy the bytes through its third byte
(dropping the inserted `0xAA`) and resume after the marker. -/
def unstuffLoop (src : List Nat) (offset : Nat) (dst : List Nat) : List Nat :=
  match h : goIndex StuffMark (src.drop offset) with
  | none => dst ++ src.drop offset
  | some ix =>
      unstuffLoop src (offset + ix + StuffMark.length)
        (dst ++ (src.drop offset).take (ix + 3))
termination_by src.length - offset
decreasing_by
  have hb := goIndex_some_bound stuffMark_ne_nil h
  rw [stuffMark_length, List.length_drop] at hb
  simp [stuffMark_length]
  omega

/-- `UnstuffBytes` of `erdle.go` (the copy in `cmd/cadu2hrdl/rw.go` is
identical except that it lacks the short-input guard): read the declared
length, trim trailing filler when the excess is a positive multiple of
the CADU body length, and remove stuff markers only when bytes beyond
the declared extent remain.  The result is the list of bytes written to
`dst`.  Go reads `src[4:8]`, which panics on inputs of length 5..7:
`none`; inputs of length ≤ 4 return without writing. -/
def UnstuffBytes (src : List Nat) : Option (List Nat) :=
  if src.length ≤ 4 then some []
  else if src.length < 8 then none
  else
    let z := leU32At src 4 + 12
    let n := src.length
    if 0 < n - z ∧ (n - z) % CaduBodyLen = 0 then some (src.take z)
    else if z < n then some (unstuffLoop src 0 [])
    else some src

/-- Structural form of `stuffLoop` on the unprocessed suffix. -/
def stuffTail (t : List Nat) : List Nat :=
  match h : goIndex Word t with
  | none => t
  | some ix => t.take ix ++ StuffMark ++ stuffTail (t.drop (ix + 3))
termination_by t.length
decreasing_by
  have hb := goIndex_some_bound word_ne_nil h
  rw [word_length] at hb
  simp
  omega

/-- Structural form of `unstuffLoop` on the unprocessed suffix. -/
def unstuffTail (t : List Nat) : List Nat :=
  match h : goIndex StuffMark t with
  | none => t
  | some ix => t.take (ix + 3) ++ unstuffTail (t.drop (ix + 4))
termination_by t.length
decreasing_by
  have hb := goIndex_some_bound stuffMark_ne_nil h
  rw [stuffMark_length] at hb
  simp
  omega

theorem stuffTail_none {t : List Nat} (h : goIndex Word t = none) :
    stuffTail t = t := by
  rw [stuffTail]
  split
  · rfl
  · next jx heq => rw [heq] at h; cases h

theorem stuffTail_some {t : List Nat} {ix : Nat} (h : goIndex Word t = some ix) :
    stuffTail t = t.take ix ++ StuffMark ++ stuffTail (t.drop (ix + 3)) := by
  rw [stuffTail]
  split
  · next heq => rw [heq] at h; cases h
  · next jx heq => rw [heq] at h; cases h; rfl

theorem unstuffTail_none {t : List Nat} (h : goIndex StuffMark t = none) :
    unstuffTail t = t := by
  rw [unstuffTail]
  split
  · rfl
  · next jx heq => rw [heq] at h; cases h

theorem unstuffTail_some {t : List Nat} {ix : Nat}
    (h : goIndex StuffMark t = some ix) :
    unstuffTail t = t.take (ix + 3) ++ unstuffTail (t.drop (ix + 4)) := by
  rw [unstuffTail]
  split
  · next heq => rw [heq] at h; cases h
  · next jx heq => rw [heq] at h; cases h; rfl

theorem stuffLoop_none {bs : List Nat} {offset : Nat} {xs : List Nat}
    (h : goIndex Word (bs.drop offset) = none) :
    stuffLoop bs offset xs = xs ++ bs.drop offset := by
  rw [stuffLoop]
  split
  · rfl
  · next jx heq => rw [heq] at h; cases h

theorem stuffLoop_some {bs : List Nat} {offset ix : Nat} {xs : List Nat}
    (h : goIndex Word (bs.drop offset) = some ix) :
    stuffLoop bs offset xs =
      stuffLoop bs (offset + ix + (WordLen - 1))
        (xs ++ (bs.drop offset).take ix ++ StuffMark) := by
  rw [stuffLoop]
  split
  · next heq => rw [heq] at h; cases h
  · next jx heq => rw [heq] at h; cases h; rfl

theorem unstuffLoop_none {src : List Nat} {offset : Nat} {dst : List Nat}
    (h : goIndex StuffMark (src.drop offset) = none) :
    unstuffLoop src offset dst = dst ++ src.drop offset := by
  rw [unstuffLoop]
  split
  · rfl
  · next jx heq => rw [heq] at h; cases h

theorem unstuffLoop_some {src : List Nat} {offset ix : Nat} {dst : List Nat}
    (h : goIndex StuffMark (src.drop offset) = some ix) :
    unstuffLoop src offset dst =
      unstuffLoop src (offset + ix + StuffMark.length)
        (dst ++ (src.drop offset).take (ix + 3)) := by
  rw [unstuffLoop]
  split
  · next heq => rw [heq] at h; cases h
  · next jx heq => rw [heq] at h; cases h; rfl

theorem stuffLoop_eq_tail (bs : List Nat) :
    ∀ offset xs, stuffLoop bs offset xs = xs ++ stuffTail (bs.drop offset) := by
  have key : ∀ m offset, bs.length - offset = m →
      ∀ xs, stuffLoop bs offset xs = xs ++ stuffTail (bs.drop offset) := by
    intro m
    induction m using Nat.strong_induction_on with
    | _ m ih =>
      intro offset hm xs
      cases h : goIndex Word (bs.drop offset) with
      | none => rw [stuffLoop_none h, stuffTail_none h]
      | some ix =>
        have hb := goIndex_some_bound word_ne_nil h
        rw [word_length, List.length_drop] at hb
        rw [stuffLoop_some h, stuffTail_some h]
        rw [ih (bs.length - (offset + ix + (WordLen - 1)))
          (by simp [WordLen]; omega) (offset + ix + (WordLen - 1)) rfl]
        rw [List.drop_drop]
        simp [WordLen]
        rw [show offset + (ix + 3) = offset + ix + 3 by omega]
  intro offset xs
  exact key (bs.length - offset) offset rfl xs

theorem unstuffLoop_eq_tail (src : List Nat) :
    ∀ offset dst, unstuffLoop src offset dst = dst ++ unstuffTail (src.drop offset) := by
  have key : ∀ m offset, src.length - offset = m →
      ∀ dst, unstuffLoop src offset dst = dst ++ unstuffTail (src.drop offset) := by
    intro m
    induction m using Nat.strong_induction_on with
    | _ m ih =>
      intro offset hm dst
      cases h : goIndex StuffMark (src.drop offset) with
      | none => rw [unstuffLoop_none h, unstuffTail_none h]
      | some ix =>
        have hb := goIndex_some_bound stuffMark_ne_nil h
        rw [stuffMark_length, List.length_drop] at hb
        rw [unstuffLoop_some h, unstuffTail_some h]
        rw [ih (src.length - (offset + ix + StuffMark.length))
          (by rw [stuffMark_length]; omega) (offset + ix + StuffMark.length) rfl]
        rw [List.drop_drop]
        simp [stuffMark_length]
        rw [show offset + (ix + 4) = offset + ix + 4 by omega]
  intro offset dst
  exact key (src.length - offset) offset rfl dst

theorem isSubAt_get? {pat l : List Nat} {i : Nat} (h : isSubAt pat l i)
    {k : Nat} (hk : k < pat.length) : l.get? (i + k) = pat.get? k := by
  unfold isSubAt at h
  have hh := congrArg (fun t => List.get? t k) h
  simp only at hh
  rw [List.get?_take hk, List.get?_drop] at hh
  exact hh

theorem isSubAt_of_append_right {pat l r : List Nat} {j : Nat}
    (h : isSubAt pat (l ++ r) j) (hj : l.length ≤ j) :
    isSubAt pat r (j - l.length) := by
  unfold isSubAt at h ⊢
  rw [List.drop_append_eq_append_drop, List.drop_eq_nil_of_le hj, List.nil_append] at h
  exact h

theorem isSubAt_append_shift (pat l r : List Nat) {i : Nat} (h : isSubAt pat r i) :
    isSubAt pat (l ++ r) (l.length + i) := @isSubAt_append_right pat l r i h

theorem isSubAt_after (pat l r : List Nat) {j : Nat} (h : isSubAt pat (l ++ r) j)
    (hj : l.length ≤ j) : isSubAt pat r (j - l.length) :=
  isSubAt_of_append_right h hj

theorem noOcc_take {pat l : List Nat} {m : Nat} (h : noOcc pat l)
    (hp : pat ≠ []) : noOcc pat (l.take m) := by
  intro j hcon
  exact h j (isSubAt_of_take hcon hp)

theorem noOcc_drop {pat l : List Nat} {k : Nat} (h : noOcc pat l) :
    noOcc pat (l.drop k) := by
  intro j hcon
  exact h (k + j) (isSubAt_drop.mp hcon)

theorem isSubAt_split {pat l : List Nat} {i : Nat} (h : isSubAt pat l i) :
    l = l.take i ++ pat ++ l.drop (i + pat.length) := by
  unfold isSubAt at h
  conv_lhs => rw [← List.take_append_drop i l]
  rw [List.append_assoc]
  congr 1
  conv_lhs => rw [← List.take_append_drop pat.length (l.drop i)]
  rw [h, List.drop_drop]

/-- Every sync-word occurrence vanishes from the output of `stuffTail`:
the escaped stream contains no occurrence of `Word` at all. -/
theorem stuffTail_noOcc_word : ∀ u : List Nat, noOcc Word (stuffTail u) := by
  have key : ∀ m u, u.length = m → noOcc Word (stuffTail u) := by
    intro m
    induction m using Nat.strong_induction_on with
    | _ m ih =>
      intro u hm j hcon
      cases gi : goIndex Word u with
      | none =>
        rw [stuffTail_none gi] at hcon
        exact goIndex_none gi j hcon
      | some ix =>
        have hb := goIndex_some_bound word_ne_nil gi
        rw [word_length] at hb
        have hmin := goIndex_some_min gi
        rw [stuffTail_some gi] at hcon
        have htl : (u.take ix).length = ix := by
          rw [List.length_take]
          omega
        -- structure bytes: the output carries the stuff marker at ix..ix+3
        have hS : ∀ t, t < 4 →
            (u.take ix ++ (StuffMark ++ stuffTail (u.drop (ix + 3)))).get? (ix + t) =
              StuffMark.get? t := by
          intro t ht
          rw [List.get?_append_right (by omega)]
          rw [htl, show ix + t - ix = t by omega]
          rw [List.get?_append (by rw [stuffMark_length]; omega)]
        rw [List.append_assoc] at hcon
        by_cases h1 : j + 4 ≤ ix
        · have hpre : isSubAt Word (u.take ix) j :=
            isSubAt_in_left hcon (by rw [htl, word_length]; omega)
          exact hmin j (by omega) (isSubAt_of_take hpre word_ne_nil)
        by_cases h2 : ix + 4 ≤ j
        · have hC : isSubAt Word (stuffTail (u.drop (ix + 3))) (j - (ix + 4)) := by
            have := isSubAt_after Word (u.take ix ++ StuffMark)
              (stuffTail (u.drop (ix + 3)))
              (by rw [List.append_assoc]; exact hcon)
              (by simp [htl, stuffMark_length]; omega)
            simpa [htl, stuffMark_length] using this
          have hlt : (u.drop (ix + 3)).length < m := by
            rw [List.length_drop]
            omega
          exact ih _ hlt (u.drop (ix + 3)) rfl _ hC
        -- straddle cases: j within distance 3 of the inserted marker
        rcases Nat.lt_trichotomy j ix with h3 | h3 | h3
        · -- j < ix < j + 4: the byte at ix is 0xF8, yet a Word occurrence
          -- at j would put one of 2E/35/53 there
          have hk1 : ix - j < Word.length := by rw [word_length]; omega
          have hw := isSubAt_get? hcon hk1
          rw [show j + (ix - j) = ix + 0 by omega] at hw
          rw [hS 0 (by omega)] at hw
          have : ix - j = 1 ∨ ix - j = 2 ∨ ix - j = 3 := by omega
          rcases this with h4 | h4 | h4 <;> rw [h4] at hw <;>
            simp [Word, StuffMark] at hw
        · -- j = ix: the occurrence would force byte 0x53 where 0xAA sits
          have hk1 : (3 : Nat) < Word.length := by rw [word_length]; omega
          have hw := isSubAt_get? hcon hk1
          rw [h3, hS 3 (by omega)] at hw
          simp [Word, StuffMark] at hw
        · -- ix < j < ix + 4: byte j would have to be 0xF8, but the marker
          -- bytes there are 2E/35/AA
          have hk1 : (0 : Nat) < Word.length := by rw [word_length]; omega
          have hw := isSubAt_get? hcon hk1
          rw [show j + 0 = ix + (j - ix) by omega] at hw
          rw [hS (j - ix) (by omega)] at hw
          have : j - ix = 1 ∨ j - ix = 2 ∨ j - ix = 3 := by omega
          rcases this with h4 | h4 | h4 <;> rw [h4] at hw <;>
            simp [Word, StuffMark] at hw
  intro u
  exact key u.length u rfl

/-- In `q ++ StuffMark ++ r` with no marker inside `q`, the first stuff
marker sits exactly at `q.length`. -/
theorem goIndex_mark_concat {q r : List Nat} (hq : noOcc StuffMark q) :
    goIndex StuffMark (q ++ (StuffMark ++ r)) = some q.length := by
  apply goIndex_eq_some
  · have h0 : isSubAt StuffMark (StuffMark ++ r) 0 := by
      unfold isSubAt
      rw [List.drop_zero, List.take_append_of_le_length (by omega), List.take_length]
    simpa using isSubAt_append_shift _ q _ h0
  · intro j hj hcon
    have hS0 : (q ++ (StuffMark ++ r)).get? q.length = some 0xf8 := by
      rw [List.get?_append_right (by omega)]
      rw [Nat.sub_self]
      rfl
    by_cases h1 : j + 4 ≤ q.length
    · exact hq j (isSubAt_in_left hcon (by rw [stuffMark_length]; omega))
    · have hk1 : q.length - j < StuffMark.length := by rw [stuffMark_length]; omega
      have hw := isSubAt_get? hcon hk1
      rw [show j + (q.length - j) = q.length by omega, hS0] at hw
      have : q.length - j = 1 ∨ q.length - j = 2 ∨ q.length - j = 3 := by omega
      rcases this with h4 | h4 | h4 <;> rw [h4] at hw <;> simp [StuffMark] at hw

/-- Unstuffing undoes stuffing on the escaped tail, for any prefix `p`
(the eight header bytes in practice), provided the original bytes carry
no literal stuff marker. -/
theorem unstuffTail_stuffTail : ∀ u p : List Nat, noOcc StuffMark (p ++ u) →
    unstuffTail (p ++ stuffTail u) = p ++ u := by
  have key : ∀ m u, u.length = m → ∀ p : List Nat, noOcc StuffMark (p ++ u) →
      unstuffTail (p ++ stuffTail u) = p ++ u := by
    intro m
    induction m using Nat.strong_induction_on with
    | _ m ih =>
      intro u hm p hno
      cases gi : goIndex Word u with
      | none =>
        rw [stuffTail_none gi]
        exact unstuffTail_none (goIndex_eq_none hno)
      | some ix =>
        have hb := goIndex_some_bound word_ne_nil gi
        rw [word_length] at hb
        have hsub := goIndex_some_sub gi
        rw [stuffTail_some gi]
        have hq : noOcc StuffMark (p ++ u.take ix) := by
          intro j hcon
          apply hno j
          have : p ++ u.take ix = (p ++ u).take (p.length + ix) := by
            rw [List.take_append]
          rw [this] at hcon
          exact isSubAt_of_take hcon stuffMark_ne_nil
        have hql : (p ++ u.take ix).length = p.length + ix := by
          rw [List.length_append, List.length_take]
          omega
        have hassoc : p ++ (u.take ix ++ StuffMark ++ stuffTail (u.drop (ix + 3))) =
            (p ++ u.take ix) ++ (StuffMark ++ stuffTail (u.drop (ix + 3))) := by
          simp [List.append_assoc]
        rw [hassoc]
        rw [unstuffTail_some (goIndex_mark_concat hq)]
        have hndrop : noOcc StuffMark (u.drop (ix + 3)) := by
          have := @noOcc_drop _ _ (p.length + (ix + 3)) hno
          rw [List.drop_append_eq_append_drop] at this
          rw [List.drop_eq_nil_of_le (by omega), List.nil_append] at this
          rw [show p.length + (ix + 3) - p.length = ix + 3 by omega] at this
          exact this
        have hrec := ih (u.drop (ix + 3)).length
          (by rw [List.length_drop]; omega) (u.drop (ix + 3)) rfl [] (by simpa using hndrop)
        rw [List.nil_append] at hrec
        -- first part: everything through the three marker prefix bytes
        have htake : ((p ++ u.take ix) ++ (StuffMark ++ stuffTail (u.drop (ix + 3)))).take
            ((p ++ u.take ix).length + 3) =
            (p ++ u.take ix) ++ [0xf8, 0x2e, 0x35] := by
          rw [List.take_append]
          congr 1
        have hdrop : ((p ++ u.take ix) ++ (StuffMark ++ stuffTail (u.drop (ix + 3)))).drop
            ((p ++ u.take ix).length + 4) = stuffTail (u.drop (ix + 3)) := by
          rw [List.drop_append]
          rw [show (4 : Nat) = StuffMark.length by rw [stuffMark_length]]
          rw [List.drop_append_of_le_length (by omega)]
          simp
        rw [htake, hdrop, hrec]
        simp only [List.nil_append]
        -- reassemble: u = u.take ix ++ [F8,2E,35] ++ u.drop (ix+3)
        have hu : u.take ix ++ ([0xf8, 0x2e, 0x35] ++ u.drop (ix + 3)) = u := by
          have hu2 := isSubAt_split hsub
          rw [word_length] at hu2
          have h3 : (u.drop ix).take 3 = [0xf8, 0x2e, 0x35] := by
            unfold isSubAt at hsub
            have := congrArg (List.take 3) hsub
            rw [List.take_take] at this
            simpa [Word] using this
          conv_rhs => rw [← List.take_append_drop ix u]
          congr 1
          conv_rhs => rw [← List.take_append_drop 3 (u.drop ix)]
          rw [h3, List.drop_drop]
        rw [List.append_assoc, List.append_assoc, hu]
  intro u p hno
  exact key u.length u rfl p hno

theorem stuffTail_length_ge : ∀ u : List Nat, u.length ≤ (stuffTail u).length := by
  have key : ∀ m u, u.length = m → u.length ≤ (stuffTail u).length := by
    intro m
    induction m using Nat.strong_induction_on with
    | _ m ih =>
      intro u hm
      cases gi : goIndex Word u with
      | none => rw [stuffTail_none gi]
      | some ix =>
        have hb := goIndex_some_bound word_ne_nil gi
        rw [word_length] at hb
        rw [stuffTail_some gi]
        have hrec := ih (u.drop (ix + 3)).length (by rw [List.length_drop]; omega)
          (u.drop (ix + 3)) rfl
        simp [List.length_take, stuffMark_length] at *
        omega
  intro u
  exact key u.length u rfl

theorem stuffTail_length_some {u : List Nat} {ix : Nat}
    (gi : goIndex Word u = some ix) : u.length + 1 ≤ (stuffTail u).length := by
  have hb := goIndex_some_bound word_ne_nil gi
  rw [word_length] at hb
  rw [stuffTail_some gi]
  have hrec := stuffTail_length_ge (u.drop (ix + 3))
  simp [List.length_take, stuffMark_length] at *
  omega

theorem stuffTail_eq_of_length {u : List Nat}
    (h : (stuffTail u).length = u.length) : stuffTail u = u := by
  cases gi : goIndex Word u with
  | none => exact stuffTail_none gi
  | some ix => have := stuffTail_length_some gi; omega

theorem getD_eq_of_take8 {s b : List Nat} (h : s.take 8 = b.take 8)
    {i : Nat} (hi : i < 8) : s.getD i 0 = b.getD i 0 := by
  have hs : (s.take 8).get? i = s.get? i := List.get?_take hi
  have hb : (b.take 8).get? i = b.get? i := List.get?_take hi
  rw [List.getD_eq_get?, List.getD_eq_get?, ← hs, ← hb, h]

theorem leU32At_eq_of_take8 {s b : List Nat} (h : s.take 8 = b.take 8) :
    leU32At s 4 = leU32At b 4 := by
  unfold leU32At
  rw [getD_eq_of_take8 h (by omega), getD_eq_of_take8 h (by omega),
    getD_eq_of_take8 h (by omega), getD_eq_of_take8 h (by omega)]

/-- C2, amended: the round trip `UnstuffBytes ∘ StuffBytes = id` holds
for inputs that are well-formed HRDL packets: the declared length is
consistent with the slice length, the input contains no literal stuff
marker, and stuffing inserts fewer than 1008 escape bytes.  The first
eight bytes are copied verbatim. -/
theorem stuff_roundtrip (b st : List Nat)
    (hst : StuffBytes b = some st)
    (hlen : leU32At b 4 + 12 = b.length)
    (hno : noOcc StuffMark b)
    (hgrow : st.length < b.length + 1008) :
    st.take 8 = b.take 8 ∧ UnstuffBytes st = some b := by
  rw [StuffBytes] at hst
  split at hst
  · cases hst
  · next h8x =>
    simp only [WordLen] at h8x
    have h8 : 8 ≤ b.length := by omega
    have hstv : st = b.take 8 ++ stuffTail (b.drop 8) := by
      have := stuffLoop_eq_tail b (WordLen * 2) (b.take (WordLen * 2))
      simp only [WordLen] at this
      simp only [WordLen] at hst
      cases hst
      exact this
    have hbl8 : (b.take 8).length = 8 := by rw [List.length_take]; omega
    have htake8 : st.take 8 = b.take 8 := by
      rw [hstv, List.take_append_of_le_length (by omega)]
      rw [List.take_take]
      simp
    refine ⟨htake8, ?_⟩
    have hstlen : st.length = 8 + (stuffTail (b.drop 8)).length := by
      rw [hstv, List.length_append, hbl8]
    have hge : b.length ≤ st.length := by
      have := stuffTail_length_ge (b.drop 8)
      rw [List.length_drop] at this
      omega
    have hz : leU32At st 4 = leU32At b 4 := leU32At_eq_of_take8 htake8
    rw [UnstuffBytes]
    rw [if_neg (by omega : ¬ st.length ≤ 4)]
    rw [if_neg (by omega : ¬ st.length < 8)]
    simp only [hz, hlen]
    by_cases hs0 : st.length = b.length
    · -- no byte was inserted: the source is returned verbatim
      rw [if_neg (by simp; omega)]
      rw [if_neg (by omega)]
      have : stuffTail (b.drop 8) = b.drop 8 := by
        apply stuffTail_eq_of_length
        rw [List.length_drop]
        omega
      rw [hstv, this, List.take_append_drop]
    · have hslt : b.length < st.length := by omega
      have hdiff : st.length - b.length < 1008 := by omega
      rw [if_neg ?hc1]
      case hc1 =>
        intro hcon
        obtain ⟨hpos, hmod⟩ := hcon
        rw [Nat.mod_eq_of_lt (by simp [CaduBodyLen]; omega)] at hmod
        omega
      rw [if_pos (by omega)]
      have hloop : unstuffLoop st 0 [] = unstuffTail st := by
        have := unstuffLoop_eq_tail st 0 []
        simpa using this
      rw [hloop, hstv]
      rw [unstuffTail_stuffTail (b.drop 8) (b.take 8)
        (by rw [List.take_append_drop]; exact hno)]
      rw [List.take_append_drop]

/-- The concrete input refuting C2 as stated: a slice whose body holds a
literal stuff marker, which `StuffBytes` leaves alone but `UnstuffBytes`
mangles. -/
def c2cexInput : List Nat :=
  [0xf8, 0x2e, 0x35, 0x53, 0x01, 0x00, 0x00, 0x00,
   0xf8, 0x2e, 0x35, 0xaa, 0xff, 0xff]

/-- C2, counterexample: unstuffing is not a left inverse of stuffing on
every byte slice. -/
theorem stuff_roundtrip_cex :
    (StuffBytes c2cexInput).bind UnstuffBytes ≠ some c2cexInput := by
  rw [show StuffBytes c2cexInput =
    some (stuffLoop c2cexInput (WordLen * 2) (c2cexInput.take (WordLen * 2))) from rfl]
  rw [stuffLoop_none (show goIndex Word (c2cexInput.drop (WordLen * 2)) = none from rfl)]
  rw [List.take_append_drop]
  rw [Option.some_bind]
  rw [show UnstuffBytes c2cexInput = some (unstuffLoop c2cexInput 0 []) from rfl]
  rw [unstuffLoop_some (show goIndex StuffMark (c2cexInput.drop 0) = some 8 from rfl)]
  rw [unstuffLoop_none
    (show goIndex StuffMark (c2cexInput.drop (0 + 8 + StuffMark.length)) = none from rfl)]
  decide

/-- A concrete well-formed packet (its body holds one sync word) for the
amended C2. -/
def c2wInput : List Nat :=
  [0xf8, 0x2e, 0x35, 0x53, 0x02, 0x00, 0x00, 0x00,
   0xf8, 0x2e, 0x35, 0x53, 0x09, 0x00]

/-- Its escaped on-wire form. -/
def c2wStuffed : List Nat :=
  [0xf8, 0x2e, 0x35, 0x53, 0x02, 0x00, 0x00, 0x00,
   0xf8, 0x2e, 0x35, 0xaa, 0x53, 0x09, 0x00]

/-- Witness for the amended C2 at a concrete well-formed packet. -/
theorem stuff_roundtrip_witness :
    StuffBytes c2wInput = some c2wStuffed ∧
      c2wStuffed.take 8 = c2wInput.take 8 ∧
      UnstuffBytes c2wStuffed = some c2wInput := by
  have hst : StuffBytes c2wInput = some c2wStuffed := by
    rw [show StuffBytes c2wInput =
      some (stuffLoop c2wInput (WordLen * 2) (c2wInput.take (WordLen * 2))) from rfl]
    rw [stuffLoop_some (show goIndex Word (c2wInput.drop (WordLen * 2)) = some 0 from rfl)]
    rw [stuffLoop_none (show goIndex Word
      (c2wInput.drop (WordLen * 2 + 0 + (WordLen - 1))) = none from rfl)]
    decide
  have hmain := stuff_roundtrip c2wInput c2wStuffed hst (by decide) (by decide) (by decide)
  exact ⟨hst, hmain.1, hmain.2⟩

/-- C6: when the input exceeds the declared extent `LENGTH + 12` by a
positive multiple of 1008, `UnstuffBytes` trims exactly the trailing
filler and emits `declared + 12` bytes. -/
theorem length_truncation (src : List Nat) (k : Nat) (hk : 1 ≤ k)
    (hlen : src.length = (leU32At src 4 + 12) + k * 1008) :
    UnstuffBytes src = some (src.take (leU32At src 4 + 12)) ∧
      (src.take (leU32At src 4 + 12)).length = leU32At src 4 + 12 := by
  have hk8 : 1008 ≤ k * 1008 := Nat.le_mul_of_pos_left 1008 hk
  have h8 : 8 ≤ src.length := by omega
  constructor
  · rw [UnstuffBytes]
    rw [if_neg (by omega : ¬ src.length ≤ 4)]
    rw [if_neg (by omega : ¬ src.length < 8)]
    rw [if_pos ?hc]
    case hc =>
      constructor
      · omega
      · rw [show src.length - (leU32At src 4 + 12) = k * 1008 by omega]
        simp [CaduBodyLen, Nat.mul_mod_left]
  · rw [List.length_take]
    omega

/-- Witness input for C6: declared length 0, followed by one full CADU
body of filler. -/
def c6Input : List Nat :=
  [0xf8, 0x2e, 0x35, 0x53, 0x00, 0x00, 0x00, 0x00, 1, 2, 3, 4] ++
    List.replicate 1008 0

set_option maxRecDepth 10000 in
/-- Witness for C6 at a concrete input. -/
theorem length_truncation_witness :
    UnstuffBytes c6Input = some (c6Input.take (leU32At c6Input 4 + 12)) ∧
      (c6Input.take (leU32At c6Input 4 + 12)).length = leU32At c6Input 4 + 12 :=
  length_truncation c6Input 1 (by decide)
    (by rw [show leU32At c6Input 4 = 0 by rfl]; rfl)

/-- `hrdlSum.Write` of `hrdl.go` / `cmd/cadu2hrdl/crc.go`: add each byte
into the running 32-bit sum. -/
def hrdlSumWrite (sum : Nat) (bs : List Nat) : Nat :=
  bs.foldl (fun v b => (v + b) % 4294967296) sum

theorem hrdlSumWrite_eq (bs : List Nat) :
    ∀ s, s < 4294967296 → hrdlSumWrite s bs = (s + bs.sum) % 4294967296 := by
  induction bs with
  | nil =>
    intro s hs
    unfold hrdlSumWrite
    simp [Nat.mod_eq_of_lt hs]
  | cons a t ih =>
    intro s hs
    unfold hrdlSumWrite at ih ⊢
    simp only [List.foldl_cons, List.sum_cons]
    rw [ih ((s + a) % 4294967296) (Nat.mod_lt _ (by omega))]
    rw [Nat.mod_add_mod]
    congr 1
    omega

/-- C10: the HRDL body checksum is invariant under permutation of the
summed bytes, and splitting the bytes over two consecutive writes gives
the same value as one write — so the trailer sum can never detect a
reordering of BODY bytes. -/
theorem hrdlSum_order_invariant (b bp b1 b2 : List Nat) (hperm : b.Perm bp) :
    hrdlSumWrite 0 b = hrdlSumWrite 0 bp ∧
      hrdlSumWrite (hrdlSumWrite 0 b1) b2 = hrdlSumWrite 0 (b1 ++ b2) := by
  constructor
  · rw [hrdlSumWrite_eq b 0 (by omega), hrdlSumWrite_eq bp 0 (by omega), hperm.sum_eq]
  · have h1 : hrdlSumWrite 0 b1 < 4294967296 := by
      rw [hrdlSumWrite_eq b1 0 (by omega)]
      exact Nat.mod_lt _ (by omega)
    rw [hrdlSumWrite_eq b2 _ h1, hrdlSumWrite_eq b1 0 (by omega),
      hrdlSumWrite_eq (b1 ++ b2) 0 (by omega)]
    rw [Nat.mod_add_mod, List.sum_append]
    congr 1
    omega

/-- Witness for C10 at concrete byte lists. -/
theorem hrdlSum_order_invariant_witness :
    hrdlSumWrite 0 [1, 2] = hrdlSumWrite 0 [2, 1] ∧
      hrdlSumWrite (hrdlSumWrite 0 [3]) [4, 5] = hrdlSumWrite 0 ([3] ++ [4, 5]) :=
  hrdlSum_order_invariant [1, 2] [2, 1] [3] [4, 5] (by decide)

/-- Per-buffer outcome of `validate` (`cmd/cadu2hrdl/rw.go`): either the
length check reads past the end of the buffer (Go panics on fewer than 8
bytes), or the buffer is dropped on a length error, or it is forwarded
(truncated to its declared extent, stripped of its 8 leading bytes) with
the checksum-error statistic flag. -/
inductive ValidateResult where
  | vpanic : ValidateResult
  | vdrop : ValidateResult
  | vpass (out : List Nat) (sumErr : Bool) : ValidateResult
deriving DecidableEq

/-- `validate` of `cmd/cadu2hrdl/rw.go` (lines 672-728), per buffer:
`z := LE(bs[4:]) + 12`; `z > len(bs)` counts a length error and drops;
`z < len(bs)` truncates to `z`; when `keep` is set, the byte sum of
`bs[8:z-4]` is compared with `LE(bs[z-4:])` and a mismatch counts a
checksum error; the buffer (minus its first 8 bytes) is then forwarded
regardless. -/
def validate (keep : Bool) (bs : List Nat) : ValidateResult :=
  if bs.length < 8 then .vpanic
  else
    let z := leU32At bs 4 + 12
    if bs.length < z then .vdrop
    else
      let v := bs.take z
      let sumErr := keep &&
        decide (hrdlSumWrite 0 ((v.take (z - 4)).drop 8) ≠ leU32At v (z - 4))
      .vpass (v.drop 8) sumErr

/-- A buffer whose trailer checksum does not match its body sum
(declared length 2, body bytes `[7, 9]`, stored sum `0xDE` instead of
`16`). -/
def c5badInput : List Nat :=
  [0xf8, 0x2e, 0x35, 0x53, 0x02, 0x00, 0x00, 0x00, 0x07, 0x09,
   0xde, 0x00, 0x00, 0x00]

/-- C5: the code contradicts the claim (and its own `-k` flag
documentation): a checksum-corrupt buffer is forwarded even with
`keep = false` — the sum is not even computed then — and with
`keep = true` it is forwarded with only the statistic flag set.  Length
errors are dropped as claimed. -/
theorem validate_code_bug :
    hrdlSumWrite 0 [0x07, 0x09] ≠ leU32At c5badInput 10 ∧
      validate false c5badInput = .vpass (c5badInput.drop 8) false ∧
      validate true c5badInput = .vpass (c5badInput.drop 8) true ∧
      validate false (c5badInput.take 13) = .vdrop := by
  decide

def hdkVersion : Nat := 0

def vmuVersion : Nat := 2

/-- Big-endian 16-bit serialization. -/
def be16 (x : Nat) : List Nat := [(x / 256) % 256, x % 256]

/-- Big-endian 32-bit serialization. -/
def be32 (x : Nat) : List Nat :=
  [(x / 16777216) % 256, (x / 65536) % 256, (x / 256) % 256, x % 256]

/-- The preamble computed by `client` (`cmd/cadu2hrdl/rw.go` 306-329):
`uint16(hdkVersion)<<12 | uint16(vmuVersion)<<8 | uint16(i)`. -/
def hadockPreamble (i : Nat) : Nat :=
  ((hdkVersion <<< 12) % 65536) ||| ((vmuVersion <<< 8) % 65536) ||| (i % 65536)

/-- `writeHadock` (`cmd/cadu2hrdl/rw.go` 347-359): sync word, preamble,
sequence, big-endian length, body, and the constant `0xFFFF` trailer. -/
def writeHadock (preamble next : Nat) (bs : List Nat) : List Nat :=
  Word ++ be16 preamble ++ be16 next ++ be32 (bs.length % 4294967296) ++ bs ++
    be16 0xFFFF

/-- `conn.Write` (`cmd/cadu2hrdl/rw.go` 331-334) on a Hadock-instance
connection: emit the frame, then bump the 16-bit sequence by one. -/
def connWriteHadock (preamble next : Nat) (bs : List Nat) : List Nat × Nat :=
  (writeHadock preamble next bs, (next + 1) % 65536)

/-- Written from the spec's words, for comparison with the code: the
"one's-complement 16-bit sum over the body (the classical Internet
checksum shape)" that the specification claims fills the trailer. -/
def specSum16Words : List Nat → List Nat
  | [] => []
  | [a] => [a % 256 * 256]
  | a :: b :: t => (a % 256 * 256 + b % 256) :: specSum16Words t

/-- Written from the spec's words: sum the 16-bit words, fold the
carries back in, and complement. -/
def specOnesComplementSum16 (bs : List Nat) : Nat :=
  let s := (specSum16Words bs).sum
  let f1 := s % 65536 + s / 65536
  let f2 := f1 % 65536 + f1 / 65536
  65535 - f2 % 65536

/-- C7, amended: for every instance in {0,1,2,255} the outbound frame is
`F8 2E 35 53 | preamble | seq | length_be | body | 0xFFFF` with
`preamble = 0x0200 | instance`, and the sequence advances by exactly one
per write; the 16-bit trailer is the constant `0xFFFF`, not a computed
checksum. -/
theorem writeHadock_frame (i next : Nat) (bs : List Nat)
    (hi : i = 0 ∨ i = 1 ∨ i = 2 ∨ i = 255) :
    connWriteHadock (hadockPreamble i) next bs =
      (Word ++ be16 (512 + i) ++ be16 next ++ be32 (bs.length % 4294967296) ++
        bs ++ [0xff, 0xff], (next + 1) % 65536) := by
  have hp : hadockPreamble i = 512 + i := by
    rcases hi with rfl | rfl | rfl | rfl <;> decide
  rw [connWriteHadock, writeHadock, hp]
  rfl

/-- Witness for the amended C7 at instance 255. -/
theorem writeHadock_frame_witness :
    connWriteHadock (hadockPreamble 255) 7 [1, 2] =
      (Word ++ be16 (512 + 255) ++ be16 7 ++ be32 ([1, 2].length % 4294967296) ++
        [1, 2] ++ [0xff, 0xff], (7 + 1) % 65536) :=
  writeHadock_frame 255 7 [1, 2] (by decide)

/-- C7, counterexample: the claimed one's-complement checksum of the
body `[1, 2]` is `0xFEFD`, yet the emitted trailer is `0xFFFF`; the
preamble 0x02FF and the frame shape are as claimed. -/
theorem writeHadock_cex :
    (writeHadock (hadockPreamble 255) 0 [1, 2]).drop 12 = [1, 2] ++ be16 0xffff ∧
      specOnesComplementSum16 [1, 2] = 0xfefd ∧
      be16 (specOnesComplementSum16 [1, 2]) ≠ be16 0xffff := by
  decide

/-- The fields of `HRDLHeader` (`hrdl.go`) that the UPI claims are
about; the trailing header reads (times, stream, counter, origin)
consume the bytes in between, so the UPI region starts at offset 48. -/
structure DecodedHeader where
  channel : Nat
  property : Nat
  upi : List Nat
deriving DecidableEq

/-- Go's `bytes.Trim(bs, "\x00")`: remove leading and trailing NUL
bytes. -/
def trimNulls (bs : List Nat) : List Nat :=
  ((bs.dropWhile (· = 0)).reverse.dropWhile (· = 0)).reverse

/-- ASCII bytes of the default UPI string `"SCIENCE"`. -/
def upiSCIENCE : List Nat := [83, 67, 73, 69, 78, 67, 69]

/-- ASCII bytes of the default UPI string `"IMAGE"`. -/
def upiIMAGE : List Nat := [73, 77, 65, 71, 69]

/-- ASCII bytes of the default UPI string `"UNKNOWN"`. -/
def upiUNKNOWN : List Nat := [85, 78, 75, 78, 79, 87, 78]

/-- `decodeHRDLHeader` of `hrdl.go` (lines 204-255), restricted to the
fields the claims mention.  The sequential little-endian reads place
channel at byte 8, property at byte 24 and the UPI region at byte 48
(8-byte HRDL header, 16-byte VMU header, 24-byte HRD header).  The UPI
is selected on `h.Property >> 4`: class 1 reads 32 bytes (default
`SCIENCE`), class 2 reads 52 bytes and keeps the bytes from offset 20
(default `IMAGE`), anything else reads nothing (`UNKNOWN`); the read
buffer is NUL-trimmed on both sides.  (`DecodeHRDL` in the same file
repeats this switch verbatim.) -/
def decodeHRDLHeader (bs : List Nat) : DecodedHeader :=
  let channel := bs.getD 8 0
  let property := bs.getD 24 0
  let rest := bs.drop 48
  let upi :=
    match property >>> 4 with
    | 1 =>
        let t := trimNulls (rest.take 32)
        if t = [] then upiSCIENCE else t
    | 2 =>
        let t := trimNulls ((rest.take 52).drop 20)
        if t = [] then upiIMAGE else t
    | _ => upiUNKNOWN
  { channel := channel, property := property, upi := upi }

/-- A decoded packet with VMU channel 3 but HRD property class 2: the
bytes at offsets 48..67 are `X` (88), those at 68..99 are `Y` (89). -/
def c9cexInput : List Nat :=
  [0, 0, 0, 0, 100, 0, 0, 0] ++ [3] ++ List.replicate 15 0 ++ [0x20] ++
    List.replicate 23 0 ++ List.replicate 20 88 ++ List.replicate 32 89

/-- C9, counterexample: on a channel-3 packet the decoder does not read
a 32-byte UPI — the property class (here 2) selects a 52-byte slot, so
the UPI is the 32 `Y` bytes, not the NUL-trimmed 32-byte slot that the
channel rule would give. -/
theorem decode_upi_by_channel_cex :
    (decodeHRDLHeader c9cexInput).channel = 3 ∧
      (decodeHRDLHeader c9cexInput).upi = List.replicate 32 89 ∧
      List.replicate 32 89 ≠ trimNulls ((c9cexInput.drop 48).take 32) := by
  decide

/-- C9, amended: the UPI is selected by the property class
`property >> 4` of the HRD header, not by the VMU channel: overwriting
the channel byte never changes the UPI, class 1 yields the NUL-trimmed
32-byte slot at offset 48 (default `SCIENCE`), class 2 yields the
trailing 32 bytes of the 52-byte slot (default `IMAGE`), and any other
class yields the default `UNKNOWN`. -/
theorem decode_upi_by_property (bs : List Nat) (c : Nat) :
    (decodeHRDLHeader (bs.set 8 c)).upi = (decodeHRDLHeader bs).upi ∧
    ((decodeHRDLHeader bs).property >>> 4 = 1 →
      (decodeHRDLHeader bs).upi =
        (if trimNulls ((bs.drop 48).take 32) = [] then upiSCIENCE
          else trimNulls ((bs.drop 48).take 32))) ∧
    ((decodeHRDLHeader bs).property >>> 4 = 2 →
      (decodeHRDLHeader bs).upi =
        (if trimNulls (((bs.drop 48).take 52).drop 20) = [] then upiIMAGE
          else trimNulls (((bs.drop 48).take 52).drop 20))) ∧
    ((decodeHRDLHeader bs).property >>> 4 ≠ 1 →
      (decodeHRDLHeader bs).property >>> 4 ≠ 2 →
      (decodeHRDLHeader bs).upi = upiUNKNOWN) := by
  have hset24 : (bs.set 8 c).getD 24 0 = bs.getD 24 0 := by
    rw [List.getD_eq_get?, List.getD_eq_get?, List.get?_eq_getElem?,
      List.get?_eq_getElem?, List.getElem?_set_ne (by omega)]
  have hsetdrop : (bs.set 8 c).drop 48 = bs.drop 48 := by
    rw [List.drop_set]
    rw [if_pos (by omega)]
  have hupi : ∀ t : List Nat, (decodeHRDLHeader t).upi =
      match t.getD 24 0 >>> 4 with
      | 1 =>
          if trimNulls ((t.drop 48).take 32) = [] then upiSCIENCE
          else trimNulls ((t.drop 48).take 32)
      | 2 =>
          if trimNulls (((t.drop 48).take 52).drop 20) = [] then upiIMAGE
          else trimNulls (((t.drop 48).take 52).drop 20)
      | _ => upiUNKNOWN := by
    intro t
    rfl
  have hprop : (decodeHRDLHeader bs).property = bs.getD 24 0 := rfl
  refine ⟨?_, ?_, ?_, ?_⟩
  · rw [hupi, hupi, hset24, hsetdrop]
  · intro hcls
    rw [hprop] at hcls
    rw [hupi, hcls]
  · intro hcls
    rw [hprop] at hcls
    rw [hupi, hcls]
  · intro h1 h2
    rw [hprop] at h1 h2
    rw [hupi]
    rcases hv : bs.getD 24 0 >>> 4 with _ | n
    · rfl
    · rw [hv] at h1 h2
      rcases n with _ | n
      · exact absurd rfl h1
      · rcases n with _ | n
        · exact absurd rfl h2
        · rfl

/-- Witness for the amended C9 at a concrete buffer (property class 2,
channel 3). -/
theorem decode_upi_by_property_witness :
    (decodeHRDLHeader (c9cexInput.set 8 5)).upi = (decodeHRDLHeader c9cexInput).upi ∧
      (decodeHRDLHeader c9cexInput).property >>> 4 = 2 ∧
      (decodeHRDLHeader c9cexInput).upi =
        (if trimNulls (((c9cexInput.drop 48).take 52).drop 20) = [] then upiIMAGE
          else trimNulls (((c9cexInput.drop 48).take 52).drop 20)) := by
  refine ⟨(decode_upi_by_property c9cexInput 5).1, by decide, ?_⟩
  exact (decode_upi_by_property c9cexInput 5).2.2.1 (by decide)

/-- CRC-CCITT seed `0xFFFF` (`vcduCITT` in `cmd/cadu2hrdl/crc.go`). -/
def vcduCITT : Nat := 0xffff

/-- CRC-CCITT polynomial `0x1021` (`vcduPOLY` in `crc.go`). -/
def vcduPOLY : Nat := 0x1021

/-- One shift step of the CRC inner loop of `vcduSum.Write`. -/
def crcRound (s : Nat) : Nat :=
  if 0 < s &&& 0x8000 then ((s <<< 1) ^^^ vcduPOLY) % 65536
  else (s <<< 1) % 65536

/-- `n` iterations of the CRC shift step. -/
def crcRounds : Nat → Nat → Nat
  | 0, s => s
  | n + 1, s => crcRounds n (crcRound s)

/-- Per-byte step of `vcduSum.Write`: xor the byte into the high half,
then run eight shift steps. -/
def crcByte (s b : Nat) : Nat := crcRounds 8 (s ^^^ ((b % 256) <<< 8))

/-- `vcduSum` over a whole byte slice, from the seed (`SumVCDU` +
`Write` in `crc.go`). -/
def crc16 (bs : List Nat) : Nat := bs.foldl crcByte vcduCITT

theorem crcRound_lt (s : Nat) : crcRound s < 65536 := by
  unfold crcRound
  split <;> exact Nat.mod_lt _ (by omega)

theorem crcRounds_lt (n : Nat) : ∀ s, 1 ≤ n → crcRounds n s < 65536 := by
  induction n with
  | zero => omega
  | succ n ih =>
    intro s _
    cases n with
    | zero => exact crcRound_lt s
    | succ m =>
      unfold crcRounds
      exact ih (crcRound s) (by omega)

theorem crc16_lt (bs : List Nat) : crc16 bs < 65536 := by
  unfold crc16
  induction bs using List.reverseRecOn with
  | nil => decide
  | append_singleton t a ih =>
    rw [List.foldl_append]
    exact crcRounds_lt 8 _ (by omega)

/-- The error kinds a CADU read can be tagged with: `ErrMagic`,
`CRCError` and `MissingCaduError` of `erdle.go`. -/
inductive VErr where
  | magic : VErr
  | crc (want got : Nat) : VErr
  | missing (fromSeq toSeq : Nat) : VErr
deriving DecidableEq

/-- The 24-bit forward distance `(to - from) & 0xFFFFFF` computed in
`uint32` arithmetic (`vcduReader.Read`, `MissingCaduError`). -/
def caduDist (fromSeq toSeq : Nat) : Nat :=
  ((toSeq + 4294967296 - fromSeq) % 4294967296) % 16777216

/-- `vcduReader.Read` of `cmd/cadu2hrdl/rw.go` (lines 123-152) in
body-only mode with no reception prefix (`skip = 0`), on one 1024-byte
frame: compute the CRC over bytes `[4, 1022)` and compare its big-endian
serialization with the stored trailer; extract the 24-bit sequence from
the big-endian `u32` at bytes `[6, 10)` shifted right by 8; flag a gap
when the masked difference from the previous counter is both above one
and different from the sequence itself (a CRC error takes precedence);
return the new counter, the error and the body `frame[14:1022]`.  No
magic check is performed. -/
def readVcdu (counter : Nat) (frame : List Nat) : Nat × Option VErr × List Nat :=
  let content := (frame.take 1022).drop 4
  let computed := crc16 content
  let stored := frame.getD 1022 0 * 256 + frame.getD 1023 0
  let errCrc : Option VErr :=
    if be16 computed = [frame.getD 1022 0, frame.getD 1023 0] then none
    else some (.crc stored computed)
  let curr := (frame.getD 6 0 * 16777216 + frame.getD 7 0 * 65536 +
      frame.getD 8 0 * 256 + frame.getD 9 0) >>> 8
  let diff := caduDist counter curr
  let err : Option VErr :=
    match errCrc with
    | some e => some e
    | none => if diff ≠ curr ∧ 1 < diff then some (.missing counter curr) else none
  (curr, err, (frame.take 1022).drop 14)

/-- The gap verdict of `readVcdu` for a frame whose CRC is intact. -/
def gapErrOf (counter seq : Nat) : Option VErr :=
  if caduDist counter seq ≠ seq ∧ 1 < caduDist counter seq then
    some (.missing counter seq)
  else none

/-- A well-formed 1024-byte CADU with the given leading four bytes:
4-byte magic slot, 2-byte packet id, 24-bit big-endian sequence, replay
byte, 4 control bytes, 1008-byte body, and the CRC trailer computed over
bytes `[4, 1022)`. -/
def mkCaduWithMagic (m4 : List Nat) (seq : Nat) (body : List Nat) : List Nat :=
  let pre := m4 ++ ([0, 0, (seq / 65536) % 256, (seq / 256) % 256, seq % 256,
    0, 0, 0, 0, 0] ++ body)
  pre ++ be16 (crc16 (pre.drop 4))

/-- A well-formed CADU with the real magic. -/
def mkCadu (seq : Nat) (body : List Nat) : List Nat :=
  mkCaduWithMagic Magic seq body

theorem getD_append_left {A B : List Nat} {n : Nat} (h : n < A.length) :
    (A ++ B).getD n 0 = A.getD n 0 := by
  rw [List.getD_eq_get?, List.getD_eq_get?, List.get?_eq_getElem?,
    List.get?_eq_getElem?, List.getElem?_append_left h]

theorem getD_append_right {A B : List Nat} {n : Nat} (h : A.length ≤ n) :
    (A ++ B).getD n 0 = B.getD (n - A.length) 0 := by
  rw [List.getD_eq_get?, List.getD_eq_get?, List.get?_eq_getElem?,
    List.get?_eq_getElem?, List.getElem?_append_right h]

theorem be16_getD0 (x : Nat) : (be16 x).getD 0 0 = (x / 256) % 256 := rfl

theorem be16_getD1 (x : Nat) : (be16 x).getD 1 0 = x % 256 := rfl

theorem seq24_recompose {s : Nat} (hs : s < 16777216) :
    ((s / 65536) % 256 * 16777216 + (s / 256) % 256 * 65536 + s % 256 * 256 + 0)
      >>> 8 = s := by
  rw [Nat.shiftRight_eq_div_pow]
  have h1 : s / 65536 % 256 = s / 65536 := by
    rw [Nat.mod_eq_of_lt (by omega)]
  rw [h1]
  omega

/-- Reading a constructed frame: the CRC matches by construction, the
sequence is extracted intact, the body is returned, and the error is
exactly the gap verdict — for any four leading bytes. -/
theorem readVcdu_mkCadu (m4 : List Nat) (counter seq : Nat) (body : List Nat)
    (hm : m4.length = 4) (hb : body.length = 1008) (hs : seq < 16777216) :
    readVcdu counter (mkCaduWithMagic m4 seq body) =
      (seq, gapErrOf counter seq, body) := by
  unfold mkCaduWithMagic
  set mid : List Nat := [0, 0, (seq / 65536) % 256, (seq / 256) % 256, seq % 256,
    0, 0, 0, 0, 0] with hmid
  have hmidlen : mid.length = 10 := rfl
  have hprelen : (m4 ++ (mid ++ body)).length = 1022 := by
    simp [List.length_append, hm, hmidlen, hb]
  have htake : ((m4 ++ (mid ++ body)) ++ be16 (crc16 ((m4 ++ (mid ++ body)).drop 4))).take 1022 =
      m4 ++ (mid ++ body) := by
    rw [List.take_append_of_le_length (by omega), ← hprelen, List.take_length]
  have hgetD : ∀ n, 4 ≤ n → n < 14 →
      ((m4 ++ (mid ++ body)) ++ be16 (crc16 ((m4 ++ (mid ++ body)).drop 4))).getD n 0 =
        mid.getD (n - 4) 0 := by
    intro n h4 h14
    rw [getD_append_left (by omega), getD_append_right (by omega), hm,
      getD_append_left (by omega)]
  unfold readVcdu
  simp only [htake]
  have htrail0 : ((m4 ++ (mid ++ body)) ++
      be16 (crc16 ((m4 ++ (mid ++ body)).drop 4))).getD 1022 0 =
        crc16 ((m4 ++ (mid ++ body)).drop 4) / 256 % 256 := by
    rw [getD_append_right (by omega)]
    rw [show 1022 - (m4 ++ (mid ++ body)).length = 0 by omega]
    rfl
  have htrail1 : ((m4 ++ (mid ++ body)) ++
      be16 (crc16 ((m4 ++ (mid ++ body)).drop 4))).getD 1023 0 =
        crc16 ((m4 ++ (mid ++ body)).drop 4) % 256 := by
    rw [getD_append_right (by omega)]
    rw [show 1023 - (m4 ++ (mid ++ body)).length = 1 by omega]
    rfl
  rw [htrail0, htrail1]
  rw [hgetD 6 (by omega) (by omega), hgetD 7 (by omega) (by omega),
    hgetD 8 (by omega) (by omega), hgetD 9 (by omega) (by omega)]
  have hmidv : mid.getD 2 0 = (seq / 65536) % 256 := rfl
  have hmidv3 : mid.getD 3 0 = (seq / 256) % 256 := rfl
  have hmidv4 : mid.getD 4 0 = seq % 256 := rfl
  have hmidv5 : mid.getD 5 0 = 0 := rfl
  simp only [show (6 : Nat) - 4 = 2 from rfl, show (7 : Nat) - 4 = 3 from rfl,
    show (8 : Nat) - 4 = 4 from rfl, show (9 : Nat) - 4 = 5 from rfl,
    hmidv, hmidv3, hmidv4, hmidv5]
  have hcond : be16 (crc16 ((m4 ++ (mid ++ body)).drop 4)) =
      [crc16 ((m4 ++ (mid ++ body)).drop 4) / 256 % 256,
        crc16 ((m4 ++ (mid ++ body)).drop 4) % 256] := rfl
  rw [if_pos hcond]
  rw [seq24_recompose hs]
  have hbody : (m4 ++ (mid ++ body)).drop 14 = body := by
    rw [show (14 : Nat) = m4.length + 10 by omega, List.drop_append]
    rw [show (10 : Nat) = mid.length + 0 by omega, List.drop_append]
    simp
  rw [hbody]
  rfl

theorem caduDist_eq {p s : Nat} (hp : p < 16777216) (hs : s < 16777216) :
    caduDist p s = (s + 16777216 - p) % 16777216 := by
  unfold caduDist
  omega

theorem caduDist_succ {p : Nat} (hp : p < 16777216) :
    caduDist p ((p + 1) % 16777216) = 1 := by
  rw [caduDist_eq hp (Nat.mod_lt _ (by omega))]
  omega

theorem caduDist_zero {s : Nat} (hs : s < 16777216) : caduDist 0 s = s := by
  rw [caduDist_eq (by omega) hs]
  omega

theorem gapErrOf_first {s : Nat} (hs : s < 16777216) : gapErrOf 0 s = none := by
  unfold gapErrOf
  rw [caduDist_zero hs]
  simp

theorem gapErrOf_succ {p : Nat} (hp : p < 16777216) :
    gapErrOf p ((p + 1) % 16777216) = none := by
  unfold gapErrOf
  rw [caduDist_succ hp]
  simp

theorem gapErrOf_gap {p s k : Nat} (hp : p < 16777216) (hk : 1 ≤ k)
    (hk2 : k + 2 ≤ 16777216) (hp0 : p ≠ 0) (hs : s = (p + (k + 1)) % 16777216) :
    gapErrOf p s = some (.missing p s) ∧ caduDist p s = k + 1 := by
  have hd : caduDist p s = k + 1 := by
    rw [hs, caduDist_eq hp (Nat.mod_lt _ (by omega))]
    omega
  refine ⟨?_, hd⟩
  unfold gapErrOf
  rw [hd]
  rw [if_pos ?hc]
  case hc =>
    constructor
    · intro hcon
      rw [hs] at hcon
      omega
    · omega

/-- Run `vcduReader.Read` over a list of frames: the per-frame
(sequence, error) trace and the final counter. -/
def vcduRunAux (counter : Nat) : List (List Nat) → List (Nat × Option VErr) × Nat
  | [] => ([], counter)
  | f :: fs =>
      let r := readVcdu counter f
      let rest := vcduRunAux r.1 fs
      ((r.1, r.2.1) :: rest.1, rest.2)

theorem vcduRunAux_append (counter : Nat) (fs gs : List (List Nat)) :
    vcduRunAux counter (fs ++ gs) =
      ((vcduRunAux counter fs).1 ++ (vcduRunAux (vcduRunAux counter fs).2 gs).1,
        (vcduRunAux (vcduRunAux counter fs).2 gs).2) := by
  induction fs generalizing counter with
  | nil => simp [vcduRunAux]
  | cons f fs ih =>
    simp only [List.cons_append, vcduRunAux, List.append_eq]
    rw [ih]

/-- `readVcdu_mkCadu` specialized to the real magic. -/
theorem readVcdu_mkCadu_magic (counter seq : Nat) (body : List Nat)
    (hb : body.length = 1008) (hs : seq < 16777216) :
    readVcdu counter (mkCadu seq body) = (seq, gapErrOf counter seq, body) :=
  readVcdu_mkCadu Magic counter seq body rfl hb hs

/-- Frames carrying the consecutive sequence numbers
`c+1, c+2, …, c+n` (modulo 2^24). -/
def consFrames (c n : Nat) (body : List Nat) : List (List Nat) :=
  (List.range n).map (fun j => mkCadu ((c + 1 + j) % 16777216) body)

theorem vcduRun_cons_run (body : List Nat) (hb : body.length = 1008) :
    ∀ n c, c < 16777216 →
      vcduRunAux c (consFrames c n body) =
        ((List.range n).map (fun j => (((c + 1 + j) % 16777216 : Nat),
          (none : Option VErr))), (c + n) % 16777216) := by
  intro n
  induction n with
  | zero =>
    intro c hc
    simp [consFrames, vcduRunAux, Nat.mod_eq_of_lt hc]
  | succ n ih =>
    intro c hc
    unfold consFrames
    rw [List.range_succ_eq_map]
    simp only [List.map_cons, List.map_map]
    rw [show (c + 1 + 0) % 16777216 = (c + 1) % 16777216 by omega]
    simp only [vcduRunAux]
    rw [readVcdu_mkCadu_magic c ((c + 1) % 16777216) body hb
      (Nat.mod_lt _ (by omega))]
    simp only
    rw [gapErrOf_succ hc]
    have hmap : (List.range n).map (fun j => mkCadu ((c + 1 + (j + 1)) % 16777216) body) =
        consFrames ((c + 1) % 16777216) n body := by
      unfold consFrames
      apply List.map_congr_left
      intro j _
      congr 1
      omega
    have hmap2 : (List.range n).map
        (fun j => ((((c + 1) % 16777216) + 1 + j) % 16777216, (none : Option VErr))) =
        (List.range n).map (fun j => ((c + 1 + (j + 1)) % 16777216, (none : Option VErr))) := by
      apply List.map_congr_left
      intro j _
      have : (((c + 1) % 16777216) + 1 + j) % 16777216 = (c + 1 + (j + 1)) % 16777216 := by
        omega
      rw [this]
    rw [show ((fun j => mkCadu ((c + 1 + j) % 16777216) body) ∘ Nat.succ) =
      (fun j => mkCadu ((c + 1 + (j + 1)) % 16777216) body) from funext (fun j => rfl)]
    rw [hmap]
    rw [ih ((c + 1) % 16777216) (Nat.mod_lt _ (by omega))]
    rw [show ((fun j => ((c + 1 + j) % 16777216, (none : Option VErr))) ∘ Nat.succ) =
      (fun j => ((c + 1 + (j + 1)) % 16777216, (none : Option VErr))) from
        funext (fun j => rfl)]
    rw [← hmap2]
    congr 1
    omega

/-- A synthetic stream of `N` CADUs with consecutive 24-bit sequence
counters `c0, c0+1, …, c0+N-1` from which the run `[i, i+k)` has been
removed: frames `c0..c0+i-1`, then frames `c0+i+k..c0+N-1`. -/
def c4Frames (c0 N i k : Nat) (body : List Nat) : List (List Nat) :=
  (mkCadu c0 body :: consFrames c0 (i - 1) body) ++
    (mkCadu ((c0 + i + k) % 16777216) body ::
      consFrames ((c0 + i + k) % 16777216) (N - (i + k) - 1) body)

/-- C4, amended: on a stream of `N` consecutive frames with one interior
run of `k ≥ 1` frames removed, and whose frame before the gap does not
carry sequence number 0 (the reader's `diff != curr` guard silently
swallows the gap in that case), the reader flags exactly one
missing-cadu error, at the first frame after the gap, with
`from` / `to` the surrounding sequence numbers; its 24-bit distance
minus one is `k`; every other frame reads without error; and the stored
counter always equals the sequence number just read (the trace pairs
each frame with its own sequence, and the final counter is the last
sequence). -/
theorem cadu_gap_detection (c0 N i k : Nat) (body : List Nat)
    (hb : body.length = 1008) (hc0 : c0 < 16777216)
    (hi : 1 ≤ i) (hik : i + k < N) (hk : 1 ≤ k) (hk2 : k + 2 ≤ 16777216)
    (hprev : (c0 + (i - 1)) % 16777216 ≠ 0) :
    (vcduRunAux 0 (c4Frames c0 N i k body)).1 =
      ((c0, (none : Option VErr)) :: (List.range (i - 1)).map
          (fun j => ((c0 + 1 + j) % 16777216, (none : Option VErr)))) ++
      (((c0 + i + k) % 16777216,
          some (VErr.missing ((c0 + (i - 1)) % 16777216) ((c0 + i + k) % 16777216))) ::
        (List.range (N - (i + k) - 1)).map
          (fun j => (((c0 + i + k) % 16777216 + 1 + j) % 16777216, (none : Option VErr)))) ∧
      caduDist ((c0 + (i - 1)) % 16777216) ((c0 + i + k) % 16777216) - 1 = k ∧
      (vcduRunAux 0 (c4Frames c0 N i k body)).2 = ((c0 + i + k) % 16777216 +
        (N - (i + k) - 1)) % 16777216 := by
  have hgap := @gapErrOf_gap ((c0 + (i - 1)) % 16777216)
    ((c0 + i + k) % 16777216) k
    (Nat.mod_lt _ (by omega)) hk hk2 hprev (by omega)
  have hrun : vcduRunAux 0 (c4Frames c0 N i k body) =
      ((c0, (none : Option VErr)) :: ((List.range (i - 1)).map
          (fun j => ((c0 + 1 + j) % 16777216, (none : Option VErr))) ++
        (((c0 + i + k) % 16777216,
            some (VErr.missing ((c0 + (i - 1)) % 16777216) ((c0 + i + k) % 16777216))) ::
          (List.range (N - (i + k) - 1)).map
            (fun j => (((c0 + i + k) % 16777216 + 1 + j) % 16777216,
              (none : Option VErr))))),
        ((c0 + i + k) % 16777216 + (N - (i + k) - 1)) % 16777216) := by
    unfold c4Frames
    rw [List.cons_append]
    simp only [vcduRunAux]
    rw [readVcdu_mkCadu_magic 0 c0 body hb hc0]
    simp only
    rw [gapErrOf_first hc0]
    rw [vcduRunAux_append]
    rw [vcduRun_cons_run body hb (i - 1) c0 hc0]
    simp only
    simp only [vcduRunAux]
    rw [readVcdu_mkCadu_magic ((c0 + (i - 1)) % 16777216) ((c0 + i + k) % 16777216)
      body hb (Nat.mod_lt _ (by omega))]
    simp only
    rw [hgap.1]
    rw [vcduRun_cons_run body hb (N - (i + k) - 1) ((c0 + i + k) % 16777216)
      (Nat.mod_lt _ (by omega))]
  refine ⟨?_, by omega, ?_⟩
  · rw [hrun]
    rw [List.cons_append]
  · rw [hrun]

/-- Witness for the amended C4: `N = 4` frames with sequences
`1, 2, 3, 4`, the run `{2}` (`i = 1`, `k = 1`) removed. -/
theorem cadu_gap_detection_witness :
    (vcduRunAux 0 (c4Frames 1 4 1 1 (List.replicate 1008 0))).1 =
      ((1, (none : Option VErr)) :: (List.range (1 - 1)).map
          (fun j => ((1 + 1 + j) % 16777216, (none : Option VErr)))) ++
      (((1 + 1 + 1) % 16777216,
          some (VErr.missing ((1 + (1 - 1)) % 16777216) ((1 + 1 + 1) % 16777216))) ::
        (List.range (4 - (1 + 1) - 1)).map
          (fun j => (((1 + 1 + 1) % 16777216 + 1 + j) % 16777216, (none : Option VErr)))) ∧
      caduDist ((1 + (1 - 1)) % 16777216) ((1 + 1 + 1) % 16777216) - 1 = 1 ∧
      (vcduRunAux 0 (c4Frames 1 4 1 1 (List.replicate 1008 0))).2 =
        ((1 + 1 + 1) % 16777216 + (4 - (1 + 1) - 1)) % 16777216 :=
  cadu_gap_detection 1 4 1 1 (List.replicate 1008 0) (by rw [List.length_replicate])
    (by omega) (by omega) (by omega) (by omega) (by omega) (by decide)

/-- C4, counterexample: sequences `0, 1, 2` with frame `1` removed — a
gap of `k = 1` — produce no missing-cadu error at all, because the
previous counter is 0 and the `diff != curr` guard suppresses the
report. -/
theorem vcdu_gap_suppressed_cex :
    (vcduRunAux 0 [mkCadu 0 (List.replicate 1008 0),
        mkCadu 2 (List.replicate 1008 0)]).1 =
      [(0, (none : Option VErr)), (2, (none : Option VErr))] := by
  simp only [vcduRunAux]
  rw [readVcdu_mkCadu_magic 0 0 _ (by rw [List.length_replicate]) (by omega)]
  simp only
  rw [gapErrOf_first (by omega)]
  rw [readVcdu_mkCadu_magic 0 2 _ (by rw [List.length_replicate]) (by omega)]
  rw [gapErrOf_first (by omega)]

/-- C8, amended: the CADU reader never verifies the magic bytes.  Its
result does not depend on the first four bytes of the frame at all, and
no read ever returns the bad-magic error (`ErrMagic` is declared in
`erdle.go` but `vcduReader.Read` has no path producing it). -/
theorem readVcdu_ignores_magic (counter : Nat) (a b rest : List Nat)
    (ha : a.length = 4) (hb2 : b.length = 4) :
    readVcdu counter (a ++ rest) = readVcdu counter (b ++ rest) ∧
      ∀ f, (readVcdu counter f).2.1 ≠ some VErr.magic := by
  have hcontent : ∀ x : List Nat, x.length = 4 →
      ((x ++ rest).take 1022).drop 4 = rest.take 1018 := by
    intro x hx
    rw [List.take_append_eq_append_take]
    rw [List.take_of_length_le (by omega)]
    rw [show (4 : Nat) = x.length + 0 by omega, List.drop_append]
    rw [hx]
    simp
  have hgd : ∀ x : List Nat, x.length = 4 → ∀ n, 4 ≤ n →
      (x ++ rest).getD n 0 = rest.getD (n - 4) 0 := by
    intro x hx n hn
    rw [getD_append_right (by omega), hx]
  have hbody : ∀ x : List Nat, x.length = 4 →
      ((x ++ rest).take 1022).drop 14 = (rest.take 1018).drop 10 := by
    intro x hx
    rw [List.take_append_eq_append_take]
    rw [List.take_of_length_le (by omega)]
    rw [show (14 : Nat) = x.length + 10 by omega, List.drop_append]
    rw [hx]
  constructor
  · simp only [readVcdu]
    rw [hcontent a ha, hcontent b hb2,
      hgd a ha 6 (by omega), hgd b hb2 6 (by omega),
      hgd a ha 7 (by omega), hgd b hb2 7 (by omega),
      hgd a ha 8 (by omega), hgd b hb2 8 (by omega),
      hgd a ha 9 (by omega), hgd b hb2 9 (by omega),
      hgd a ha 1022 (by omega), hgd b hb2 1022 (by omega),
      hgd a ha 1023 (by omega), hgd b hb2 1023 (by omega),
      hbody a ha, hbody b hb2]
  · intro f hcon
    simp only [readVcdu] at hcon
    split at hcon
    · next e heq =>
      split at heq
      · cases heq
      · cases heq
        cases hcon
    · split at hcon
      · cases hcon
      · cases hcon

/-- Witness for the amended C8: a frame with garbage leading bytes reads
exactly like one with the true magic. -/
theorem readVcdu_ignores_magic_witness :
    readVcdu 0 ([1, 2, 3, 4] ++ List.replicate 1020 7) =
      readVcdu 0 (Magic ++ List.replicate 1020 7) ∧
      ∀ f, (readVcdu 0 f).2.1 ≠ some VErr.magic :=
  readVcdu_ignores_magic 0 [1, 2, 3, 4] Magic (List.replicate 1020 7)
    (by decide) (by decide)

/-- C8, counterexample: a full well-formed frame whose four leading
bytes are zero — not the magic — is read without any error at all; no
bad-magic error is returned. -/
theorem vcdu_magic_cex :
    readVcdu 0 (mkCaduWithMagic [0, 0, 0, 0] 5 (List.replicate 1008 0)) =
      (5, none, List.replicate 1008 0) ∧ ([0, 0, 0, 0] : List Nat) ≠ Magic := by
  constructor
  · rw [readVcdu_mkCadu [0, 0, 0, 0] 0 5 (List.replicate 1008 0) (by rfl)
      (by rw [List.length_replicate]) (by omega)]
    rw [gapErrOf_first (by omega)]
  · decide

/-! The HRDL reassembly path (`hrdlReader.Read` → `nextPacket` →
`UnstuffBytes`, `cmd/cadu2hrdl/rw.go` lines 154-176 and 810-853).
`nextPacket` pulls 1008-byte CADU bodies from the CADU reader; a read
flagged with a missing-cadu error has its body discarded (`continue` in
the search loop, `ErrSkip` in the fill loop); any other read error is
terminal.  A block is modelled as the flag together with the body
bytes. -/

/-- The byte stream formed by the bodies of a block list. -/
def concatBodies (blocks : List (Bool × List Nat)) : List Nat :=
  (blocks.map (fun p => p.2)).flatten

/-- Result of the first `nextPacket` loop: either a terminal reader
error (EOF), or the accumulated buffer now starting at a sync word. -/
inductive SearchRes where
  | eofS : SearchRes
  | foundS (buffer : List Nat) (blocks : List (Bool × List Nat)) : SearchRes
deriving DecidableEq

/-- The first loop of `nextPacket` (`rw.go` 814-834): read a block;
missing-cadu reads are skipped outright; after appending, exit when the
buffer begins with the sync word, or drop everything before the first
sync occurrence found in the window `buffer[offset:]`; otherwise slide
`offset` by `n - WordLen` and read on. -/
def searchPk (buf : List Nat) (offset : Nat) :
    List (Bool × List Nat) → SearchRes
  | [] => .eofS
  | (e, bb) :: bl =>
      if e then searchPk buf offset bl
      else
        let buf2 := buf ++ bb
        if buf2.take WordLen = Word then .foundS buf2 bl
        else if WordLen < buf2.length - offset then
          match goIndex Word (buf2.drop offset) with
          | some ix => .foundS (buf2.drop (offset + ix)) bl
          | none => searchPk buf2 (offset + bb.length - WordLen) bl
        else searchPk buf2 (offset + bb.length - WordLen) bl

/-- Result of the second `nextPacket` loop: terminal error, `ErrSkip`
after a missing-cadu read, or the packet split at the next sync word. -/
inductive FillRes where
  | eofF : FillRes
  | skipF (blocks : List (Bool × List Nat)) : FillRes
  | okF (packet rest : List Nat) (blocks : List (Bool × List Nat)) : FillRes
deriving DecidableEq

/-- The second loop of `nextPacket` (`rw.go` 835-851): read a block (a
missing-cadu read aborts the packet with `ErrSkip`), append, and split
the buffer at the first sync occurrence in `buffer[offset:]`; otherwise
slide `offset` by `n - WordLen` and read on. -/
def fillPk (buf : List Nat) (offset : Nat) :
    List (Bool × List Nat) → FillRes
  | [] => .eofF
  | (e, bb) :: bl =>
      if e then .skipF bl
      else
        let buf2 := buf ++ bb
        match goIndex Word (buf2.drop offset) with
        | some ix => .okF (buf2.take (offset + ix)) (buf2.drop (offset + ix)) bl
        | none => fillPk buf2 (offset + bb.length - WordLen) bl

/-- Result of one `nextPacket` call. -/
inductive NextRes where
  | eofN : NextRes
  | skipN (blocks : List (Bool × List Nat)) : NextRes
  | okN (packet rest : List Nat) (blocks : List (Bool × List Nat)) : NextRes
deriving DecidableEq

/-- `nextPacket` (`rw.go` 810-853): run the search loop from the
carry-over `rest` at offset 0, then the fill loop from offset
`WordLen`. -/
def nextPacket (blocks : List (Bool × List Nat)) (rest : List Nat) : NextRes :=
  match searchPk rest 0 blocks with
  | .eofS => .eofN
  | .foundS buffer bl =>
      match fillPk buffer WordLen bl with
      | .eofF => .eofN
      | .skipF bl2 => .skipN bl2
      | .okF packet rest2 bl2 => .okN packet rest2 bl2

/-- `hrdlReader.Read` (`rw.go` 163-176) iterated over a block stream:
each successful `nextPacket` emits the unstuffed buffer and keeps the
carry-over; `ErrSkip` retries with an empty carry; any terminal error
ends the stream.  `fuel` bounds the number of calls (each call consumes
at least one block, so `blocks.length + 1` suffices). -/
def hrdlRun (fuel : Nat) (blocks : List (Bool × List Nat)) (rest : List Nat) :
    List (List Nat) :=
  match fuel with
  | 0 => []
  | fuel + 1 =>
      match nextPacket blocks rest with
      | .eofN => []
      | .skipN bl => hrdlRun fuel bl []
      | .okN packet rest2 bl =>
          match UnstuffBytes packet with
          | some out => out :: hrdlRun fuel bl rest2
          | none => []

/-- The value `StuffBytes` produces on inputs of length at least 8. -/
def stuffP (P : List Nat) : List Nat := P.take 8 ++ stuffTail (P.drop 8)

theorem StuffBytes_eq_stuffP {P : List Nat} (h8 : 8 ≤ P.length) :
    StuffBytes P = some (stuffP P) := by
  rw [StuffBytes, if_neg (by simp [WordLen]; omega)]
  rw [stuffLoop_eq_tail]
  rfl

theorem unstuff_stuffP {P : List Nat} (h8 : 8 ≤ P.length)
    (hlen : leU32At P 4 + 12 = P.length) (hno : noOcc StuffMark P)
    (hgrow : (stuffP P).length < P.length + 1008) :
    UnstuffBytes (stuffP P) = some P :=
  (stuff_roundtrip P (stuffP P) (StuffBytes_eq_stuffP h8) hlen hno hgrow).2

/-- A well-formed HRDL packet for the reassembly theorems: it opens
with the sync word, its declared length is consistent and below 2^16
(bytes 6 and 7 of the length field are zero), it holds no literal stuff
marker, it spans at least two CADU bodies (2016 bytes), and stuffing
inserts fewer than 1008 bytes. -/
def wfPacket (P : List Nat) : Prop :=
  P.take 4 = Word ∧ P.getD 6 0 = 0 ∧ P.getD 7 0 = 0 ∧
    leU32At P 4 + 12 = P.length ∧ noOcc StuffMark P ∧ 2016 ≤ P.length ∧
    (stuffP P).length < P.length + 1008

instance (P : List Nat) : Decidable (wfPacket P) := by
  unfold wfPacket
  infer_instance

/-- The encoded on-wire stream: the stuffed packets back to back,
padded with `pad` zero bytes to fill the final CADU body. -/
def streamBytes : List (List Nat) → Nat → List Nat
  | [], pad => List.replicate pad 0
  | P :: Ps, pad => stuffP P ++ streamBytes Ps pad

/-- Frames with consecutive sequence numbers continuing after counter
`c`, carrying the given bodies. -/
def mkFramesFrom : Nat → List (List Nat) → List (List Nat)
  | _, [] => []
  | c, b :: bs => mkCadu ((c + 1) % 16777216) b ::
      mkFramesFrom ((c + 1) % 16777216) bs

/-- The CADU stream for the reassembly scenario: bodies wrapped in
frames with consecutive sequence numbers starting at `c0`. -/
def c1Frames (c0 : Nat) (bodies : List (List Nat)) : List (List Nat) :=
  match bodies with
  | [] => []
  | b :: bs => mkCadu c0 b :: mkFramesFrom c0 bs

/-- Feed frames through `vcduReader.Read` and pair each body with its
missing-cadu flag, tracking the final counter.  (A CRC-flagged read
would abort the Go pipeline instead; the constructed frames below always
carry valid CRCs, so that path cannot arise here.) -/
def vcduBlocksAux (counter : Nat) : List (List Nat) → List (Bool × List Nat) × Nat
  | [] => ([], counter)
  | f :: fs =>
      let r := readVcdu counter f
      let rest := vcduBlocksAux r.1 fs
      ((match r.2.1 with
        | some (VErr.missing a b) => true
        | _ => false, r.2.2) :: rest.1, rest.2)

/-- The flagged block stream a `CaduReader` presents to `nextPacket`. -/
def vcduBlocks (counter : Nat) (frames : List (List Nat)) : List (Bool × List Nat) :=
  (vcduBlocksAux counter frames).1

/-- Split a byte stream into `m` CADU bodies of 1008 bytes. -/
def chunks1008 : Nat → List Nat → List (List Nat)
  | 0, _ => []
  | m + 1, l => l.take 1008 :: chunks1008 m (l.drop 1008)

theorem concatBodies_nil : concatBodies [] = [] := rfl

theorem concatBodies_cons (e : Bool) (bb : List Nat) (bl : List (Bool × List Nat)) :
    concatBodies ((e, bb) :: bl) = bb ++ concatBodies bl := rfl

theorem get?_of_getD {l : List Nat} {i v : Nat} (hi : i < l.length)
    (hD : l.getD i 0 = v) : l.get? i = some v := by
  rw [List.getD_eq_get?] at hD
  cases hq : l.get? i with
  | none =>
    rw [List.get?_eq_none] at hq
    omega
  | some w =>
    rw [hq] at hD
    simp at hD
    rw [hD]

theorem wf_len8 {P : List Nat} (hw : wfPacket P) : 8 ≤ P.length := by
  obtain ⟨-, -, -, -, -, hsz, -⟩ := hw
  omega

theorem wf_sync {P : List Nat} (hw : wfPacket P) : isSubAt Word P 0 := by
  obtain ⟨h1, -, -, -, -, -, -⟩ := hw
  unfold isSubAt
  simp only [List.drop_zero, word_length]
  exact h1

theorem stuffP_length_ge {P : List Nat} (h8 : 8 ≤ P.length) :
    P.length ≤ (stuffP P).length := by
  unfold stuffP
  rw [List.length_append, List.length_take]
  have := stuffTail_length_ge (P.drop 8)
  rw [List.length_drop] at this
  omega

theorem stuffP_get?_lt8 {P : List Nat} (h8 : 8 ≤ P.length) {k : Nat}
    (hk : k < 8) : (stuffP P).get? k = P.get? k := by
  unfold stuffP
  rw [List.get?_append (by rw [List.length_take]; omega)]
  rw [List.get?_take hk]

theorem stuffP_occ0 {P : List Nat} (hw : wfPacket P) :
    isSubAt Word (stuffP P) 0 := by
  have h8 := wf_len8 hw
  obtain ⟨h1, -, -, -, -, -, -⟩ := hw
  unfold isSubAt
  simp only [List.drop_zero, word_length]
  unfold stuffP
  rw [List.take_append_of_le_length (by rw [List.length_take]; omega)]
  rw [List.take_take]
  rw [show min 4 8 = 4 from rfl]
  exact h1

/-- Inside the stuffed image of a well-formed packet, the sync word
occurs only at offset 0: positions 1-7 are ruled out byte by byte (the
packet opens with the sync word and bytes 6-7 are zero), and positions
8 and beyond land inside `stuffTail`, which never contains the sync
word. -/
theorem stuffP_noOcc_mid {P : List Nat} (hw : wfPacket P) :
    ∀ j, 1 ≤ j → ¬ isSubAt Word (stuffP P) j := by
  have h8 := wf_len8 hw
  obtain ⟨h1, h6, h7, hlen, hno, hsz, hgr⟩ := hw
  have hP0 : isSubAt Word P 0 := by
    unfold isSubAt
    simp only [List.drop_zero, word_length]
    exact h1
  have hg6 : P.get? 6 = some 0 := get?_of_getD (by omega) h6
  have hg7 : P.get? 7 = some 0 := get?_of_getD (by omega) h7
  intro j hj hcon
  by_cases hj8 : 8 ≤ j
  · unfold stuffP at hcon
    have htail := isSubAt_of_append_right hcon (by rw [List.length_take]; omega)
    exact stuffTail_noOcc_word (P.drop 8) _ htail
  · push_neg at hj8
    have hbyte : ∀ p, p < 8 → (stuffP P).get? p = P.get? p :=
      fun p hp => stuffP_get?_lt8 h8 hp
    interval_cases j
    · have hx := isSubAt_get? hcon (show (0 : Nat) < Word.length by decide)
      rw [show (1 + 0 : Nat) = 1 from rfl, hbyte 1 (by decide)] at hx
      have hy := isSubAt_get? hP0 (show (1 : Nat) < Word.length by decide)
      rw [show (0 + 1 : Nat) = 1 from rfl] at hy
      rw [hy] at hx
      exact absurd hx (by decide)
    · have hx := isSubAt_get? hcon (show (0 : Nat) < Word.length by decide)
      rw [show (2 + 0 : Nat) = 2 from rfl, hbyte 2 (by decide)] at hx
      have hy := isSubAt_get? hP0 (show (2 : Nat) < Word.length by decide)
      rw [show (0 + 2 : Nat) = 2 from rfl] at hy
      rw [hy] at hx
      exact absurd hx (by decide)
    · have hx := isSubAt_get? hcon (show (0 : Nat) < Word.length by decide)
      rw [show (3 + 0 : Nat) = 3 from rfl, hbyte 3 (by decide)] at hx
      have hy := isSubAt_get? hP0 (show (3 : Nat) < Word.length by decide)
      rw [show (0 + 3 : Nat) = 3 from rfl] at hy
      rw [hy] at hx
      exact absurd hx (by decide)
    · have hx := isSubAt_get? hcon (show (2 : Nat) < Word.length by decide)
      rw [show (4 + 2 : Nat) = 6 from rfl, hbyte 6 (by decide), hg6] at hx
      exact absurd hx (by decide)
    · have hx := isSubAt_get? hcon (show (1 : Nat) < Word.length by decide)
      rw [show (5 + 1 : Nat) = 6 from rfl, hbyte 6 (by decide), hg6] at hx
      exact absurd hx (by decide)
    · have hx := isSubAt_get? hcon (show (0 : Nat) < Word.length by decide)
      rw [show (6 + 0 : Nat) = 6 from rfl, hbyte 6 (by decide), hg6] at hx
      exact absurd hx (by decide)
    · have hx := isSubAt_get? hcon (show (0 : Nat) < Word.length by decide)
      rw [show (7 + 0 : Nat) = 7 from rfl, hbyte 7 (by decide), hg7] at hx
      exact absurd hx (by decide)

theorem noOcc_word_replicate (n : Nat) : noOcc Word (List.replicate n 0) := by
  intro i hcon
  have hx := isSubAt_get? hcon (show (0 : Nat) < Word.length by decide)
  rw [Nat.add_zero] at hx
  have hmem : (248 : Nat) ∈ List.replicate n 0 :=
    List.get?_mem (show (List.replicate n 0).get? i = some 248 from hx)
  have := List.eq_of_mem_replicate hmem
  omega

theorem streamBytes_take_head (P : List Nat) (Ps : List (List Nat)) (pad : Nat) :
    (streamBytes (P :: Ps) pad).take (stuffP P).length = stuffP P := by
  show (stuffP P ++ streamBytes Ps pad).take (stuffP P).length = stuffP P
  rw [List.take_left]

theorem streamBytes_drop_head (P : List Nat) (Ps : List (List Nat)) (pad : Nat) :
    (streamBytes (P :: Ps) pad).drop (stuffP P).length = streamBytes Ps pad := by
  show (stuffP P ++ streamBytes Ps pad).drop (stuffP P).length = streamBytes Ps pad
  rw [List.drop_left]

/-- First byte of an encoded stream: a zero filler byte or the 0xF8 of
a sync word (or the stream is empty). -/
theorem streamBytes_get0 (Ps : List (List Nat)) (pad : Nat)
    (hws : ∀ Q ∈ Ps, wfPacket Q) :
    streamBytes Ps pad = [] ∨ (streamBytes Ps pad).get? 0 = some 0 ∨
      (streamBytes Ps pad).get? 0 = some 248 := by
  cases Ps with
  | nil =>
    cases pad with
    | zero => exact Or.inl rfl
    | succ p => exact Or.inr (Or.inl rfl)
  | cons P Ps2 =>
    right; right
    have hw := hws P (by simp)
    have h8 := wf_len8 hw
    have hsz : 2016 ≤ P.length := by
      obtain ⟨-, -, -, -, -, hsz, -⟩ := hw
      exact hsz
    have hlenP : 0 < (stuffP P).length := by
      have := stuffP_length_ge h8
      omega
    show (stuffP P ++ streamBytes Ps2 pad).get? 0 = some 248
    rw [List.get?_append hlenP, stuffP_get?_lt8 h8 (by decide)]
    have hy := isSubAt_get? (wf_sync hw) (show (0 : Nat) < Word.length by decide)
    rw [Nat.add_zero] at hy
    exact hy

theorem stream_occ0 (P : List Nat) (Ps : List (List Nat)) (pad : Nat)
    (hw : wfPacket P) : isSubAt Word (streamBytes (P :: Ps) pad) 0 := by
  show isSubAt Word (stuffP P ++ streamBytes Ps pad) 0
  exact isSubAt_append_left (stuffP_occ0 hw) word_ne_nil

theorem stream_occL (P Pn : List Nat) (Ps : List (List Nat)) (pad : Nat)
    (hw : wfPacket Pn) :
    isSubAt Word (streamBytes (P :: Pn :: Ps) pad) (stuffP P).length := by
  have h := stream_occ0 Pn Ps pad hw
  have h2 := isSubAt_append_shift _ (stuffP P) _ h
  rw [Nat.add_zero] at h2
  exact h2

/-- No sync occurrence strictly inside the stuffed head packet of a
stream (before the start of the next packet). -/
theorem stream_noOcc_mid (P : List Nat) (Ps : List (List Nat)) (pad : Nat)
    (hw : wfPacket P) (hws : ∀ Q ∈ Ps, wfPacket Q) :
    ∀ j, 1 ≤ j → j < (stuffP P).length →
      ¬ isSubAt Word (streamBytes (P :: Ps) pad) j := by
  intro j hj hjL hcon0
  have hcon : isSubAt Word (stuffP P ++ streamBytes Ps pad) j := hcon0
  by_cases hcomp : j + 4 ≤ (stuffP P).length
  · exact stuffP_noOcc_mid hw j hj
      (isSubAt_in_left hcon (by rw [word_length]; omega))
  · push_neg at hcomp
    have hk : (stuffP P).length - j < Word.length := by rw [word_length]; omega
    have hx := isSubAt_get? hcon hk
    rw [show j + ((stuffP P).length - j) = (stuffP P).length by omega] at hx
    rw [List.get?_append_right (le_refl _), Nat.sub_self] at hx
    rcases streamBytes_get0 Ps pad hws with hnil | h0 | h248
    · have hb := isSubAt_bound word_ne_nil hcon
      rw [List.length_append, hnil, word_length] at hb
      simp at hb
      omega
    · rw [h0] at hx
      have hd13 : (stuffP P).length - j = 1 ∨ (stuffP P).length - j = 2 ∨
          (stuffP P).length - j = 3 := by
        rw [word_length] at hk
        omega
      rcases hd13 with h | h | h <;> rw [h] at hx <;> exact absurd hx (by decide)
    · rw [h248] at hx
      have hd13 : (stuffP P).length - j = 1 ∨ (stuffP P).length - j = 2 ∨
          (stuffP P).length - j = 3 := by
        rw [word_length] at hk
        omega
      rcases hd13 with h | h | h <;> rw [h] at hx <;> exact absurd hx (by decide)

/-- After the last packet the stream is zero filler, so the sync word
never occurs past offset 0. -/
theorem stream_noOcc_last (P : List Nat) (pad : Nat) (hw : wfPacket P) :
    ∀ j, 1 ≤ j → ¬ isSubAt Word (streamBytes [P] pad) j := by
  intro j hj hcon
  by_cases hjL : j < (stuffP P).length
  · exact stream_noOcc_mid P [] pad hw (by simp) j hj hjL hcon
  · push_neg at hjL
    have hcon2 : isSubAt Word (stuffP P ++ streamBytes [] pad) j := hcon
    have h2 := isSubAt_of_append_right hcon2 hjL
    exact noOcc_word_replicate pad _ h2

theorem stream_take4 (Q : List Nat) (Qs : List (List Nat)) (pad : Nat)
    (hw : wfPacket Q) : (streamBytes (Q :: Qs) pad).take 4 = Word := by
  have h := stream_occ0 Q Qs pad hw
  unfold isSubAt at h
  rw [List.drop_zero, word_length] at h
  exact h

theorem fillPk_nil (buf : List Nat) (offset : Nat) :
    fillPk buf offset [] = .eofF := rfl

theorem fillPk_flag (buf : List Nat) (offset : Nat) (bb : List Nat)
    (bl : List (Bool × List Nat)) :
    fillPk buf offset ((true, bb) :: bl) = .skipF bl := by
  simp [fillPk]

theorem fillPk_found {buf bb : List Nat} {offset ix : Nat}
    (bl : List (Bool × List Nat))
    (h : goIndex Word ((buf ++ bb).drop offset) = some ix) :
    fillPk buf offset ((false, bb) :: bl) =
      .okF ((buf ++ bb).take (offset + ix)) ((buf ++ bb).drop (offset + ix)) bl := by
  simp [fillPk, h]

theorem fillPk_miss {buf bb : List Nat} {offset : Nat}
    (bl : List (Bool × List Nat))
    (h : goIndex Word ((buf ++ bb).drop offset) = none) :
    fillPk buf offset ((false, bb) :: bl) =
      fillPk (buf ++ bb) (offset + bb.length - WordLen) bl := by
  simp [fillPk, h]

theorem searchPk_nil (buf : List Nat) (offset : Nat) :
    searchPk buf offset [] = .eofS := rfl

theorem searchPk_flag (buf : List Nat) (offset : Nat) (bb : List Nat)
    (bl : List (Bool × List Nat)) :
    searchPk buf offset ((true, bb) :: bl) = searchPk buf offset bl := by
  simp [searchPk]

theorem searchPk_syncexit {buf bb : List Nat} (offset : Nat)
    (bl : List (Bool × List Nat)) (h : (buf ++ bb).take WordLen = Word) :
    searchPk buf offset ((false, bb) :: bl) = .foundS (buf ++ bb) bl := by
  simp [searchPk, h]

theorem searchPk_found {buf bb : List Nat} {offset ix : Nat}
    (bl : List (Bool × List Nat)) (h1 : ¬ (buf ++ bb).take WordLen = Word)
    (h2 : WordLen < (buf ++ bb).length - offset)
    (h3 : goIndex Word ((buf ++ bb).drop offset) = some ix) :
    searchPk buf offset ((false, bb) :: bl) =
      .foundS ((buf ++ bb).drop (offset + ix)) bl := by
  have hW : WordLen = 4 := rfl
  simp [searchPk, h1, h3]
  intro hcon
  exfalso
  rw [List.length_append] at h2
  rw [hW] at h2 hcon
  omega

theorem searchPk_missed {buf bb : List Nat} {offset : Nat}
    (bl : List (Bool × List Nat)) (h1 : ¬ (buf ++ bb).take WordLen = Word)
    (h2 : WordLen < (buf ++ bb).length - offset)
    (h3 : goIndex Word ((buf ++ bb).drop offset) = none) :
    searchPk buf offset ((false, bb) :: bl) =
      searchPk (buf ++ bb) (offset + bb.length - WordLen) bl := by
  simp [searchPk, h1, h2, h3]

/-- The fill loop splits the accumulated stream at the first sync-word
occurrence `j₀` beyond the packet head, returning the packet bytes
`F.take j₀` and a carry-over of at most 1011 bytes. -/
theorem fillPk_finds : ∀ (blocks : List (Bool × List Nat)) (buf : List Nat)
    (offset j₀ : Nat) (F : List Nat),
    (∀ p ∈ blocks, p.1 = false ∧ p.2.length = 1008) →
    F = buf ++ concatBodies blocks →
    4 ≤ offset → offset ≤ j₀ → offset ≤ buf.length + 1 →
    buf.length < j₀ + 4 → j₀ + 4 ≤ F.length →
    isSubAt Word F j₀ →
    (∀ j, 4 ≤ j → j < j₀ → ¬ isSubAt Word F j) →
    ∃ cnt m, 1 ≤ cnt ∧ cnt ≤ blocks.length ∧ 4 ≤ m ∧ m ≤ 1011 ∧
      fillPk buf offset blocks = .okF (F.take j₀) ((F.drop j₀).take m) (blocks.drop cnt) ∧
      (F.drop j₀).take m ++ concatBodies (blocks.drop cnt) = F.drop j₀ := by
  intro blocks
  induction blocks with
  | nil =>
    intro buf offset j₀ F hbl hF h4 hoj hob hbuf hcomp hocc hmin
    rw [hF, concatBodies_nil, List.append_nil] at hcomp
    omega
  | cons hd bl ih =>
    intro buf offset j₀ F hbl hF h4 hoj hob hbuf hcomp hocc hmin
    obtain ⟨e, bb⟩ := hd
    have hhd := hbl (e, bb) (by simp)
    have he : e = false := hhd.1
    have hbb : bb.length = 1008 := hhd.2
    subst he
    have hF2 : F = (buf ++ bb) ++ concatBodies bl := by
      rw [hF, concatBodies_cons, List.append_assoc]
    have hlen2 : (buf ++ bb).length = buf.length + 1008 := by
      rw [List.length_append, hbb]
    have htake : F.take (buf ++ bb).length = buf ++ bb := by
      rw [hF2]
      exact List.take_left _ _
    by_cases hdone : j₀ + 4 ≤ (buf ++ bb).length
    · -- the occurrence completes inside the freshly extended buffer
      have hsub2 : isSubAt Word (buf ++ bb) j₀ := by
        rw [hF2] at hocc
        exact isSubAt_in_left hocc (by rw [word_length]; omega)
      have hsubw : isSubAt Word ((buf ++ bb).drop offset) (j₀ - offset) := by
        rw [isSubAt_drop, show offset + (j₀ - offset) = j₀ by omega]
        exact hsub2
      have hminw : ∀ t, t < j₀ - offset → ¬ isSubAt Word ((buf ++ bb).drop offset) t := by
        intro t ht hcon2
        rw [isSubAt_drop] at hcon2
        have hFocc : isSubAt Word F (offset + t) := by
          rw [hF2]
          exact isSubAt_append_left hcon2 word_ne_nil
        exact hmin (offset + t) (by omega) (by omega) hFocc
      have hgi : goIndex Word ((buf ++ bb).drop offset) = some (j₀ - offset) :=
        goIndex_eq_some hsubw hminw
      have hA : (buf ++ bb).take j₀ = F.take j₀ := by
        rw [← htake, List.take_take, min_eq_left (by omega)]
      have hB : (buf ++ bb).drop j₀ = (F.drop j₀).take (buf.length + 1008 - j₀) := by
        rw [← htake, List.drop_take, hlen2]
      refine ⟨1, buf.length + 1008 - j₀, by omega, by simp, by omega, by omega, ?_, ?_⟩
      · rw [fillPk_found bl hgi, show offset + (j₀ - offset) = j₀ by omega, hA, hB]
        rfl
      · show (F.drop j₀).take (buf.length + 1008 - j₀) ++ concatBodies bl = F.drop j₀
        conv_rhs => rw [← List.take_append_drop (buf.length + 1008 - j₀) (F.drop j₀)]
        congr 1
        rw [List.drop_drop, show j₀ + (buf.length + 1008 - j₀) = buf.length + 1008 by omega]
        rw [← hlen2, hF2, List.drop_left]
    · -- no complete occurrence yet: read on
      push_neg at hdone
      have hnone : goIndex Word ((buf ++ bb).drop offset) = none := by
        apply goIndex_eq_none
        intro t hcon2
        rw [isSubAt_drop] at hcon2
        have hb := isSubAt_bound word_ne_nil hcon2
        rw [word_length] at hb
        have hFocc : isSubAt Word F (offset + t) := by
          rw [hF2]
          exact isSubAt_append_left hcon2 word_ne_nil
        exact hmin (offset + t) (by omega) (by omega) hFocc
      have hoff : offset + bb.length - WordLen = offset + 1004 := by
        rw [hbb, show WordLen = 4 from rfl]
        omega
      obtain ⟨cnt, m, hc1, hcl, hm4, hm11, heq, hrest⟩ :=
        ih (buf ++ bb) (offset + 1004) j₀ F
          (fun p hp => hbl p (by simp [hp])) hF2
          (by omega) (by omega) (by omega) (by omega) hcomp hocc hmin
      refine ⟨cnt + 1, m, by omega, by simp [List.length_cons]; omega, hm4, hm11, ?_, ?_⟩
      · rw [fillPk_miss bl hnone, hoff, List.drop_succ_cons, heq]
      · rw [List.drop_succ_cons]
        exact hrest

/-- If the sync word never occurs at offset 4 or beyond, the fill loop
exhausts the reader and returns the terminal error. -/
theorem fillPk_eof : ∀ (blocks : List (Bool × List Nat)) (buf : List Nat)
    (offset : Nat) (F : List Nat),
    (∀ p ∈ blocks, p.1 = false ∧ p.2.length = 1008) →
    F = buf ++ concatBodies blocks →
    4 ≤ offset →
    (∀ j, 4 ≤ j → ¬ isSubAt Word F j) →
    fillPk buf offset blocks = .eofF := by
  intro blocks
  induction blocks with
  | nil => intro buf offset F _ _ _ _; exact fillPk_nil buf offset
  | cons hd bl ih =>
    intro buf offset F hbl hF h4 hno
    obtain ⟨e, bb⟩ := hd
    have hhd := hbl (e, bb) (by simp)
    have he : e = false := hhd.1
    have hbb : bb.length = 1008 := hhd.2
    subst he
    have hF2 : F = (buf ++ bb) ++ concatBodies bl := by
      rw [hF, concatBodies_cons, List.append_assoc]
    have hnone : goIndex Word ((buf ++ bb).drop offset) = none := by
      apply goIndex_eq_none
      intro t hcon2
      rw [isSubAt_drop] at hcon2
      have hFocc : isSubAt Word F (offset + t) := by
        rw [hF2]
        exact isSubAt_append_left hcon2 word_ne_nil
      exact hno (offset + t) (by omega) hFocc
    have hoff : offset + bb.length - WordLen = offset + 1004 := by
      rw [hbb, show WordLen = 4 from rfl]
      omega
    rw [fillPk_miss bl hnone, hoff]
    exact ih (buf ++ bb) (offset + 1004) F
      (fun p hp => hbl p (by simp [hp])) hF2 (by omega) hno

/-- If the sync word does not reappear before a missing-cadu read, the
fill loop aborts the packet with `ErrSkip`. -/
theorem fillPk_skip : ∀ (good : List (Bool × List Nat)) (buf : List Nat)
    (offset : Nat) (bz : List Nat) (tl : List (Bool × List Nat)) (F : List Nat),
    (∀ p ∈ good, p.1 = false ∧ p.2.length = 1008) →
    F = buf ++ concatBodies good →
    4 ≤ offset →
    (∀ j, 4 ≤ j → ¬ isSubAt Word F j) →
    fillPk buf offset (good ++ (true, bz) :: tl) = .skipF tl := by
  intro good
  induction good with
  | nil =>
    intro buf offset bz tl F _ _ _ _
    rw [List.nil_append]
    exact fillPk_flag buf offset bz tl
  | cons hd gl ih =>
    intro buf offset bz tl F hbl hF h4 hno
    obtain ⟨e, bb⟩ := hd
    have hhd := hbl (e, bb) (by simp)
    have he : e = false := hhd.1
    have hbb : bb.length = 1008 := hhd.2
    subst he
    have hF2 : F = (buf ++ bb) ++ concatBodies gl := by
      rw [hF, concatBodies_cons, List.append_assoc]
    have hnone : goIndex Word ((buf ++ bb).drop offset) = none := by
      apply goIndex_eq_none
      intro t hcon2
      rw [isSubAt_drop] at hcon2
      have hFocc : isSubAt Word F (offset + t) := by
        rw [hF2]
        exact isSubAt_append_left hcon2 word_ne_nil
      exact hno (offset + t) (by omega) hFocc
    have hoff : offset + bb.length - WordLen = offset + 1004 := by
      rw [hbb, show WordLen = 4 from rfl]
      omega
    rw [List.cons_append, fillPk_miss (gl ++ (true, bz) :: tl) hnone, hoff]
    exact ih (buf ++ bb) (offset + 1004) bz tl F
      (fun p hp => hbl p (by simp [hp])) hF2 (by omega) hno

/-- The search loop locates the first sync-word occurrence `g₀ ≥ 1` of
the stream and returns the buffer trimmed to start there. -/
theorem searchPk_scan : ∀ (blocks : List (Bool × List Nat)) (buf : List Nat)
    (offset g₀ : Nat) (F : List Nat),
    (∀ p ∈ blocks, p.1 = false ∧ p.2.length = 1008) →
    F = buf ++ concatBodies blocks →
    offset ≤ g₀ → offset ≤ buf.length + 1 →
    buf.length < g₀ + 4 → g₀ + 4 ≤ F.length → 1 ≤ g₀ →
    isSubAt Word F g₀ →
    (∀ j, j < g₀ → ¬ isSubAt Word F j) →
    ∃ cnt m, 1 ≤ cnt ∧ cnt ≤ blocks.length ∧ 4 ≤ m ∧ m ≤ 1011 ∧
      searchPk buf offset blocks = .foundS ((F.drop g₀).take m) (blocks.drop cnt) ∧
      (F.drop g₀).take m ++ concatBodies (blocks.drop cnt) = F.drop g₀ := by
  intro blocks
  induction blocks with
  | nil =>
    intro buf offset g₀ F hbl hF hog hob hbuf hcomp hg1 hocc hmin
    rw [concatBodies_nil, List.append_nil] at hF
    have := congrArg List.length hF
    omega
  | cons hd bl ih =>
    intro buf offset g₀ F hbl hF hog hob hbuf hcomp hg1 hocc hmin
    obtain ⟨e, bb⟩ := hd
    have hhd := hbl (e, bb) (by simp)
    have he : e = false := hhd.1
    have hbb : bb.length = 1008 := hhd.2
    subst he
    have hF2 : F = (buf ++ bb) ++ concatBodies bl := by
      rw [hF, concatBodies_cons, List.append_assoc]
    have hlen2 : (buf ++ bb).length = buf.length + 1008 := by
      rw [List.length_append, hbb]
    have htake : F.take (buf ++ bb).length = buf ++ bb := by
      rw [hF2]
      exact List.take_left _ _
    have htake4 : ¬ ((buf ++ bb).take WordLen = Word) := by
      intro hcon
      apply hmin 0 (by omega)
      unfold isSubAt
      rw [List.drop_zero, word_length]
      rw [show WordLen = 4 from rfl] at hcon
      rw [← htake, List.take_take, show min 4 (buf ++ bb).length = 4 by omega] at hcon
      exact hcon
    have hguard : WordLen < (buf ++ bb).length - offset := by
      rw [show WordLen = 4 from rfl]
      omega
    by_cases hdone : g₀ + 4 ≤ (buf ++ bb).length
    · have hsub2 : isSubAt Word (buf ++ bb) g₀ := by
        rw [hF2] at hocc
        exact isSubAt_in_left hocc (by rw [word_length]; omega)
      have hsubw : isSubAt Word ((buf ++ bb).drop offset) (g₀ - offset) := by
        rw [isSubAt_drop, show offset + (g₀ - offset) = g₀ by omega]
        exact hsub2
      have hminw : ∀ t, t < g₀ - offset → ¬ isSubAt Word ((buf ++ bb).drop offset) t := by
        intro t ht hcon2
        rw [isSubAt_drop] at hcon2
        have hFocc : isSubAt Word F (offset + t) := by
          rw [hF2]
          exact isSubAt_append_left hcon2 word_ne_nil
        exact hmin (offset + t) (by omega) hFocc
      have hgi : goIndex Word ((buf ++ bb).drop offset) = some (g₀ - offset) :=
        goIndex_eq_some hsubw hminw
      have hB : (buf ++ bb).drop g₀ = (F.drop g₀).take (buf.length + 1008 - g₀) := by
        rw [← htake, List.drop_take, hlen2]
      refine ⟨1, buf.length + 1008 - g₀, by omega, by simp, by omega, by omega, ?_, ?_⟩
      · rw [searchPk_found bl htake4 hguard hgi,
          show offset + (g₀ - offset) = g₀ by omega, hB]
        rfl
      · show (F.drop g₀).take (buf.length + 1008 - g₀) ++ concatBodies bl = F.drop g₀
        conv_rhs => rw [← List.take_append_drop (buf.length + 1008 - g₀) (F.drop g₀)]
        congr 1
        rw [List.drop_drop, show g₀ + (buf.length + 1008 - g₀) = buf.length + 1008 by omega]
        rw [← hlen2, hF2, List.drop_left]
    · push_neg at hdone
      have hnone : goIndex Word ((buf ++ bb).drop offset) = none := by
        apply goIndex_eq_none
        intro t hcon2
        rw [isSubAt_drop] at hcon2
        have hb := isSubAt_bound word_ne_nil hcon2
        rw [word_length] at hb
        have hFocc : isSubAt Word F (offset + t) := by
          rw [hF2]
          exact isSubAt_append_left hcon2 word_ne_nil
        exact hmin (offset + t) (by omega) hFocc
      have hoff : offset + bb.length - WordLen = offset + 1004 := by
        rw [hbb, show WordLen = 4 from rfl]
        omega
      obtain ⟨cnt, m, hc1, hcl, hm4, hm11, heq, hrest⟩ :=
        ih (buf ++ bb) (offset + 1004) g₀ F
          (fun p hp => hbl p (by simp [hp])) hF2
          (by omega) (by omega) (by omega) hcomp hg1 hocc hmin
      refine ⟨cnt + 1, m, by omega, by simp [List.length_cons]; omega, hm4, hm11, ?_, ?_⟩
      · rw [searchPk_missed bl htake4 hguard hnone, hoff, List.drop_succ_cons, heq]
      · rw [List.drop_succ_cons]
        exact hrest

/-- One successful `nextPacket` call: with the remaining stream `F`
holding its first sync word at offset 0 and its next one at offset `L`,
the call returns the bytes `F.take L` and a carry-over of at most 1011
bytes that still begins the remaining stream. -/
theorem nextPacket_ok (blocks : List (Bool × List Nat)) (rest F : List Nat) (L : Nat)
    (hbl : ∀ p ∈ blocks, p.1 = false ∧ p.2.length = 1008)
    (hF : rest ++ concatBodies blocks = F)
    (hr : rest.length ≤ 1011)
    (hL : 2016 ≤ L)
    (hocc0 : isSubAt Word F 0)
    (hocc : isSubAt Word F L)
    (hmin : ∀ j, 1 ≤ j → j < L → ¬ isSubAt Word F j)
    (hcomp : L + 4 ≤ F.length) :
    ∃ cnt m, 1 ≤ cnt ∧ cnt ≤ blocks.length ∧ 4 ≤ m ∧ m ≤ 1011 ∧
      nextPacket blocks rest = .okN (F.take L) ((F.drop L).take m) (blocks.drop cnt) ∧
      (F.drop L).take m ++ concatBodies (blocks.drop cnt) = F.drop L := by
  cases blocks with
  | nil =>
    rw [concatBodies_nil, List.append_nil] at hF
    have := congrArg List.length hF
    omega
  | cons hd bl =>
    obtain ⟨e, bb⟩ := hd
    have hhd := hbl (e, bb) (by simp)
    have he : e = false := hhd.1
    have hbb : bb.length = 1008 := hhd.2
    subst he
    have hF2 : F = (rest ++ bb) ++ concatBodies bl := by
      rw [← hF, concatBodies_cons, List.append_assoc]
    have hlen2 : (rest ++ bb).length = rest.length + 1008 := by
      rw [List.length_append, hbb]
    have htake : F.take (rest ++ bb).length = rest ++ bb := by
      rw [hF2]
      exact List.take_left _ _
    have hsync : (rest ++ bb).take WordLen = Word := by
      rw [show WordLen = 4 from rfl, ← htake, List.take_take,
        show min 4 (rest ++ bb).length = 4 by omega]
      unfold isSubAt at hocc0
      rw [List.drop_zero, word_length] at hocc0
      exact hocc0
    have hsearch := searchPk_syncexit 0 bl hsync
    obtain ⟨cnt, m, hc1, hcl, hm4, hm11, hfill, hrest⟩ :=
      fillPk_finds bl (rest ++ bb) 4 L F
        (fun p hp => hbl p (by simp [hp])) hF2
        (by omega) (by omega) (by omega) (by omega) hcomp hocc
        (fun j hj hjL => hmin j (by omega) hjL)
    refine ⟨cnt + 1, m, by omega, by simp [List.length_cons]; omega, hm4, hm11, ?_, ?_⟩
    · simp only [nextPacket, hsearch, show WordLen = 4 from rfl, hfill,
        List.drop_succ_cons]
    · rw [List.drop_succ_cons]
      exact hrest

/-- A `nextPacket` call on a stream whose sync word never reappears:
the reader is exhausted and the call ends with a terminal error, losing
the bytes of the packet being filled. -/
theorem nextPacket_eof (blocks : List (Bool × List Nat)) (rest F : List Nat)
    (hbl : ∀ p ∈ blocks, p.1 = false ∧ p.2.length = 1008)
    (hF : rest ++ concatBodies blocks = F)
    (hocc0 : isSubAt Word F 0)
    (hno : ∀ j, 4 ≤ j → ¬ isSubAt Word F j) :
    nextPacket blocks rest = .eofN := by
  cases blocks with
  | nil => rfl
  | cons hd bl =>
    obtain ⟨e, bb⟩ := hd
    have hhd := hbl (e, bb) (by simp)
    have he : e = false := hhd.1
    have hbb : bb.length = 1008 := hhd.2
    subst he
    have hF2 : F = (rest ++ bb) ++ concatBodies bl := by
      rw [← hF, concatBodies_cons, List.append_assoc]
    have hlen2 : (rest ++ bb).length = rest.length + 1008 := by
      rw [List.length_append, hbb]
    have htake : F.take (rest ++ bb).length = rest ++ bb := by
      rw [hF2]
      exact List.take_left _ _
    have hsync : (rest ++ bb).take WordLen = Word := by
      rw [show WordLen = 4 from rfl, ← htake, List.take_take,
        show min 4 (rest ++ bb).length = 4 by omega]
      unfold isSubAt at hocc0
      rw [List.drop_zero, word_length] at hocc0
      exact hocc0
    have hsearch := searchPk_syncexit 0 bl hsync
    have hfill := fillPk_eof bl (rest ++ bb) 4 F
      (fun p hp => hbl p (by simp [hp])) hF2 (by omega) hno
    simp only [nextPacket, hsearch, show WordLen = 4 from rfl, hfill]

/-- A `nextPacket` call that hits a missing-cadu read while filling,
before the next sync word has appeared: `ErrSkip` is returned and the
partial packet is discarded along with the carry-over. -/
theorem nextPacket_skip (good tl : List (Bool × List Nat)) (bb1 bz rest G : List Nat)
    (hbb1 : bb1.length = 1008)
    (hgood : ∀ p ∈ good, p.1 = false ∧ p.2.length = 1008)
    (hG : rest ++ bb1 ++ concatBodies good = G)
    (hocc0 : isSubAt Word G 0)
    (hno : ∀ j, 4 ≤ j → ¬ isSubAt Word G j) :
    nextPacket (((false, bb1) :: good) ++ (true, bz) :: tl) rest = .skipN tl := by
  have hG2 : G = (rest ++ bb1) ++ concatBodies good := by
    rw [← hG, List.append_assoc]
  have hlen2 : (rest ++ bb1).length = rest.length + 1008 := by
    rw [List.length_append, hbb1]
  have htake : G.take (rest ++ bb1).length = rest ++ bb1 := by
    rw [hG2]
    exact List.take_left _ _
  have hsync : (rest ++ bb1).take WordLen = Word := by
    rw [show WordLen = 4 from rfl, ← htake, List.take_take,
      show min 4 (rest ++ bb1).length = 4 by omega]
    unfold isSubAt at hocc0
    rw [List.drop_zero, word_length] at hocc0
    exact hocc0
  have hsearch := searchPk_syncexit 0 (good ++ (true, bz) :: tl) hsync
  have hfill := fillPk_skip good (rest ++ bb1) 4 bz tl G hgood hG2 (by omega) hno
  rw [List.cons_append]
  simp only [nextPacket, hsearch, show WordLen = 4 from rfl, hfill]

/-- A `nextPacket` call entered with an empty carry-over on a stream
whose first sync word sits at offset `g₀ ≥ 1` and next one at
`g₀ + L`: the garbage before `g₀` is dropped and the packet
`F[g₀, g₀+L)` is returned. -/
theorem nextPacket_scan (blocks : List (Bool × List Nat)) (F : List Nat) (g₀ L : Nat)
    (hbl : ∀ p ∈ blocks, p.1 = false ∧ p.2.length = 1008)
    (hF : concatBodies blocks = F)
    (hg1 : 1 ≤ g₀) (hL : 2016 ≤ L)
    (hmin1 : ∀ j, j < g₀ → ¬ isSubAt Word F j)
    (hocc1 : isSubAt Word F g₀)
    (hmin2 : ∀ j, g₀ < j → j < g₀ + L → ¬ isSubAt Word F j)
    (hocc2 : isSubAt Word F (g₀ + L))
    (hcomp : g₀ + L + 4 ≤ F.length) :
    ∃ cnt m, 1 ≤ cnt ∧ cnt ≤ blocks.length ∧ 4 ≤ m ∧ m ≤ 1011 ∧
      nextPacket blocks [] =
        .okN ((F.drop g₀).take L) ((F.drop (g₀ + L)).take m) (blocks.drop cnt) ∧
      (F.drop (g₀ + L)).take m ++ concatBodies (blocks.drop cnt) = F.drop (g₀ + L) := by
  obtain ⟨c1, m1, hc11, hc1l, hm14, hm111, hsearch, hrest1⟩ :=
    searchPk_scan blocks [] 0 g₀ F hbl (by rw [List.nil_append, hF])
      (by omega) (by simp) (by simp) (by omega) hg1 hocc1 hmin1
  have hlenB : ((F.drop g₀).take m1).length = m1 := by
    rw [List.length_take, List.length_drop]
    omega
  obtain ⟨c2, m, hc21, hc2l, hm4, hm11, hfill, hrest2⟩ :=
    fillPk_finds (blocks.drop c1) ((F.drop g₀).take m1) 4 L (F.drop g₀)
      (fun p hp => hbl p (List.mem_of_mem_drop hp)) hrest1.symm
      (by omega) (by omega) (by omega) (by omega)
      (by rw [List.length_drop]; omega)
      (by rw [isSubAt_drop]; exact hocc2)
      (by
        intro j hj hjL hcon2
        rw [isSubAt_drop] at hcon2
        exact hmin2 (g₀ + j) (by omega) (by omega) hcon2)
  have hdd : (F.drop g₀).drop L = F.drop (g₀ + L) := by
    rw [List.drop_drop]
  have hbd : (blocks.drop c1).drop c2 = blocks.drop (c1 + c2) := by
    rw [List.drop_drop]
  rw [hdd, hbd] at hfill hrest2
  refine ⟨c1 + c2, m, by omega, ?_, hm4, hm11, ?_, hrest2⟩
  · have := List.length_drop c1 blocks
    omega
  · simp only [nextPacket, hsearch, show WordLen = 4 from rfl, hfill]

/-- Iterating `hrdlReader.Read` over the block stream of a well-formed
multi-packet encoding emits every packet except the last: each call
needs the following packet's sync word to delimit the current one, so
the final packet dies with the reader's end-of-stream error. -/
theorem hrdlRun_all : ∀ (Ps : List (List Nat)) (blocks : List (Bool × List Nat))
    (rest : List Nat) (pad fuel : Nat),
    (∀ P ∈ Ps, wfPacket P) →
    (∀ p ∈ blocks, p.1 = false ∧ p.2.length = 1008) →
    rest ++ concatBodies blocks = streamBytes Ps pad →
    rest.length ≤ 1011 →
    blocks.length < fuel →
    Ps ≠ [] →
    hrdlRun fuel blocks rest = Ps.dropLast := by
  intro Ps
  induction Ps with
  | nil => intro blocks rest pad fuel _ _ _ _ _ hne; exact absurd rfl hne
  | cons P Ps2 ih =>
    intro blocks rest pad fuel hw hbl hF hr hfuel _
    have hwP := hw P (by simp)
    have h8 := wf_len8 hwP
    have hszP : 2016 ≤ P.length := hwP.2.2.2.2.2.1
    have hLP : 2016 ≤ (stuffP P).length := by
      have := stuffP_length_ge h8
      omega
    have hocc0 : isSubAt Word (streamBytes (P :: Ps2) pad) 0 :=
      stream_occ0 P Ps2 pad hwP
    cases fuel with
    | zero => omega
    | succ f =>
      cases Ps2 with
      | nil =>
        have heof := nextPacket_eof blocks rest (streamBytes [P] pad) hbl hF hocc0
          (fun j hj => stream_noOcc_last P pad hwP j (by omega))
        simp only [hrdlRun, heof]
        rfl
      | cons Pn Ps3 =>
        have hwPn := hw Pn (by simp)
        have hocc := stream_occL P Pn Ps3 pad hwPn
        have hmin := stream_noOcc_mid P (Pn :: Ps3) pad hwP
          (fun Q hQ => hw Q (by simp [hQ]))
        have hlenF : (streamBytes (P :: Pn :: Ps3) pad).length =
            (stuffP P).length + (streamBytes (Pn :: Ps3) pad).length := by
          show (stuffP P ++ streamBytes (Pn :: Ps3) pad).length = _
          rw [List.length_append]
        have htail : 2016 ≤ (streamBytes (Pn :: Ps3) pad).length := by
          have h8n := wf_len8 hwPn
          have hszn : 2016 ≤ Pn.length := hwPn.2.2.2.2.2.1
          have := stuffP_length_ge h8n
          show 2016 ≤ (stuffP Pn ++ streamBytes Ps3 pad).length
          rw [List.length_append]
          omega
        obtain ⟨cnt, m, hc1, hcl, hm4, hm11, hnp, hrest2⟩ :=
          nextPacket_ok blocks rest (streamBytes (P :: Pn :: Ps3) pad)
            (stuffP P).length hbl hF hr hLP hocc0 hocc hmin (by omega)
        have hFtake := streamBytes_take_head P (Pn :: Ps3) pad
        have hFdrop := streamBytes_drop_head P (Pn :: Ps3) pad
        have hust : UnstuffBytes ((streamBytes (P :: Pn :: Ps3) pad).take
            (stuffP P).length) = some P := by
          rw [hFtake]
          exact unstuff_stuffP h8 hwP.2.2.2.1 hwP.2.2.2.2.1 hwP.2.2.2.2.2.2
        simp only [hrdlRun, hnp, hust]
        rw [show (P :: Pn :: Ps3).dropLast = P :: (Pn :: Ps3).dropLast from rfl]
        congr 1
        rw [hFdrop] at hrest2
        apply ih (blocks.drop cnt)
          (((streamBytes (P :: Pn :: Ps3) pad).drop (stuffP P).length).take m) pad f
          (fun Q hQ => hw Q (by simp [hQ]))
          (fun p hp => hbl p (List.mem_of_mem_drop hp))
          (by rw [hFdrop]; exact hrest2)
          (by rw [hFdrop, List.length_take]; omega)
          (by have := List.length_drop cnt blocks; omega)
          (by simp)

/-- Frames with consecutive sequence numbers read back as unflagged
blocks carrying their bodies, the counter tracking the last sequence. -/
theorem vcduBlocksAux_consec : ∀ (bodies : List (List Nat)) (c : Nat),
    c < 16777216 → (∀ b ∈ bodies, b.length = 1008) →
    vcduBlocksAux c (mkFramesFrom c bodies) =
      (bodies.map (fun b => (false, b)), (c + bodies.length) % 16777216) := by
  intro bodies
  induction bodies with
  | nil =>
    intro c hc _
    simp [mkFramesFrom, vcduBlocksAux, Nat.mod_eq_of_lt hc]
  | cons b bs ih =>
    intro c hc hb
    have hb1 : b.length = 1008 := hb b (by simp)
    have hs : (c + 1) % 16777216 < 16777216 := Nat.mod_lt _ (by omega)
    have hread : readVcdu c (mkCadu ((c + 1) % 16777216) b) =
        ((c + 1) % 16777216, none, b) := by
      rw [show mkCadu ((c + 1) % 16777216) b =
          mkCaduWithMagic Magic ((c + 1) % 16777216) b from rfl,
        readVcdu_mkCadu Magic c ((c + 1) % 16777216) b rfl hb1 hs,
        gapErrOf_succ hc]
    show vcduBlocksAux c
        (mkCadu ((c + 1) % 16777216) b :: mkFramesFrom ((c + 1) % 16777216) bs) = _
    simp only [vcduBlocksAux, hread,
      ih ((c + 1) % 16777216) hs (fun x hx => hb x (by simp [hx]))]
    simp only [List.map_cons, List.length_cons, Nat.mod_add_mod]
    congr 1
    omega

/-- The whole constructed CADU stream reads back as the unflagged body
stream: the first frame is accepted because the counter starts at 0,
the rest because the sequence numbers are consecutive. -/
theorem vcduBlocks_c1Frames (bodies : List (List Nat)) (c0 : Nat)
    (hc0 : c0 < 16777216) (hb : ∀ b ∈ bodies, b.length = 1008) :
    vcduBlocks 0 (c1Frames c0 bodies) = bodies.map (fun b => (false, b)) := by
  cases bodies with
  | nil => rfl
  | cons b bs =>
    have hb1 : b.length = 1008 := hb b (by simp)
    have hread : readVcdu 0 (mkCadu c0 b) = (c0, none, b) := by
      rw [show mkCadu c0 b = mkCaduWithMagic Magic c0 b from rfl,
        readVcdu_mkCadu Magic 0 c0 b rfl hb1 hc0, gapErrOf_first hc0]
    show vcduBlocks 0 (mkCadu c0 b :: mkFramesFrom c0 bs) = _
    unfold vcduBlocks
    simp only [vcduBlocksAux, hread,
      vcduBlocksAux_consec bs c0 hc0 (fun x hx => hb x (by simp [hx]))]
    simp

/-- Splitting a stream of length `1008 m` yields `m` bodies of 1008
bytes whose concatenation restores the stream. -/
theorem chunks1008_spec : ∀ (m : Nat) (l : List Nat), l.length = 1008 * m →
    (∀ b ∈ chunks1008 m l, b.length = 1008) ∧
    concatBodies ((chunks1008 m l).map (fun b => (false, b))) = l ∧
    (chunks1008 m l).length = m := by
  intro m
  induction m with
  | zero =>
    intro l hl
    refine ⟨by simp [chunks1008], ?_, rfl⟩
    have : l = [] := List.length_eq_zero.mp (by omega)
    rw [this]
    rfl
  | succ m ih =>
    intro l hl
    have hlen : (l.take 1008).length = 1008 := by
      rw [List.length_take]
      omega
    have hdl : (l.drop 1008).length = 1008 * m := by
      rw [List.length_drop]
      omega
    obtain ⟨h1, h2, h3⟩ := ih (l.drop 1008) hdl
    refine ⟨?_, ?_, ?_⟩
    · intro b hbmem
      simp only [chunks1008, List.mem_cons] at hbmem
      rcases hbmem with h | h
      · rw [h]
        exact hlen
      · exact h1 b h
    · show concatBodies ((l.take 1008 :: chunks1008 m (l.drop 1008)).map
          (fun b => (false, b))) = l
      rw [List.map_cons, concatBodies_cons, h2, List.take_append_drop]
    · simp [chunks1008, h3]

theorem concatBodies_length {blocks : List (Bool × List Nat)}
    (h : ∀ p ∈ blocks, p.2.length = 1008) :
    (concatBodies blocks).length = 1008 * blocks.length := by
  induction blocks with
  | nil => rfl
  | cons hd bl ih =>
    obtain ⟨e, bb⟩ := hd
    rw [concatBodies_cons, List.length_append, h (e, bb) (by simp),
      ih (fun p hp => h p (by simp [hp])), List.length_cons]
    omega

/-- `fillPk_finds` holding on a block list with an arbitrary extension:
the loop stops strictly inside the unflagged prefix, so the extension
is carried through untouched. -/
theorem fillPk_finds_ext : ∀ (blocksA : List (Bool × List Nat))
    (ext : List (Bool × List Nat)) (buf : List Nat) (offset j₀ : Nat) (F : List Nat),
    (∀ p ∈ blocksA, p.1 = false ∧ p.2.length = 1008) →
    F = buf ++ concatBodies blocksA →
    4 ≤ offset → offset ≤ j₀ → offset ≤ buf.length + 1 →
    buf.length < j₀ + 4 → j₀ + 4 ≤ F.length →
    isSubAt Word F j₀ →
    (∀ j, 4 ≤ j → j < j₀ → ¬ isSubAt Word F j) →
    ∃ cnt m, 1 ≤ cnt ∧ cnt ≤ blocksA.length ∧ 4 ≤ m ∧ m ≤ 1011 ∧
      fillPk buf offset (blocksA ++ ext) =
        .okF (F.take j₀) ((F.drop j₀).take m) (blocksA.drop cnt ++ ext) ∧
      (F.drop j₀).take m ++ concatBodies (blocksA.drop cnt) = F.drop j₀ := by
  intro blocksA
  induction blocksA with
  | nil =>
    intro ext buf offset j₀ F hbl hF h4 hoj hob hbuf hcomp hocc hmin
    rw [hF, concatBodies_nil, List.append_nil] at hcomp
    omega
  | cons hd bl ih =>
    intro ext buf offset j₀ F hbl hF h4 hoj hob hbuf hcomp hocc hmin
    obtain ⟨e, bb⟩ := hd
    have hhd := hbl (e, bb) (by simp)
    have he : e = false := hhd.1
    have hbb : bb.length = 1008 := hhd.2
    subst he
    have hF2 : F = (buf ++ bb) ++ concatBodies bl := by
      rw [hF, concatBodies_cons, List.append_assoc]
    have hlen2 : (buf ++ bb).length = buf.length + 1008 := by
      rw [List.length_append, hbb]
    have htake : F.take (buf ++ bb).length = buf ++ bb := by
      rw [hF2]
      exact List.take_left _ _
    by_cases hdone : j₀ + 4 ≤ (buf ++ bb).length
    · have hsub2 : isSubAt Word (buf ++ bb) j₀ := by
        rw [hF2] at hocc
        exact isSubAt_in_left hocc (by rw [word_length]; omega)
      have hsubw : isSubAt Word ((buf ++ bb).drop offset) (j₀ - offset) := by
        rw [isSubAt_drop, show offset + (j₀ - offset) = j₀ by omega]
        exact hsub2
      have hminw : ∀ t, t < j₀ - offset → ¬ isSubAt Word ((buf ++ bb).drop offset) t := by
        intro t ht hcon2
        rw [isSubAt_drop] at hcon2
        have hFocc : isSubAt Word F (offset + t) := by
          rw [hF2]
          exact isSubAt_append_left hcon2 word_ne_nil
        exact hmin (offset + t) (by omega) (by omega) hFocc
      have hgi : goIndex Word ((buf ++ bb).drop offset) = some (j₀ - offset) :=
        goIndex_eq_some hsubw hminw
      have hA : (buf ++ bb).take j₀ = F.take j₀ := by
        rw [← htake, List.take_take, min_eq_left (by omega)]
      have hB : (buf ++ bb).drop j₀ = (F.drop j₀).take (buf.length + 1008 - j₀) := by
        rw [← htake, List.drop_take, hlen2]
      refine ⟨1, buf.length + 1008 - j₀, by omega, by simp, by omega, by omega, ?_, ?_⟩
      · rw [List.cons_append, fillPk_found (bl ++ ext) hgi,
          show offset + (j₀ - offset) = j₀ by omega, hA, hB]
        rfl
      · show (F.drop j₀).take (buf.length + 1008 - j₀) ++ concatBodies bl = F.drop j₀
        conv_rhs => rw [← List.take_append_drop (buf.length + 1008 - j₀) (F.drop j₀)]
        congr 1
        rw [List.drop_drop, show j₀ + (buf.length + 1008 - j₀) = buf.length + 1008 by omega]
        rw [← hlen2, hF2, List.drop_left]
    · push_neg at hdone
      have hnone : goIndex Word ((buf ++ bb).drop offset) = none := by
        apply goIndex_eq_none
        intro t hcon2
        rw [isSubAt_drop] at hcon2
        have hb := isSubAt_bound word_ne_nil hcon2
        rw [word_length] at hb
        have hFocc : isSubAt Word F (offset + t) := by
          rw [hF2]
          exact isSubAt_append_left hcon2 word_ne_nil
        exact hmin (offset + t) (by omega) (by omega) hFocc
      have hoff : offset + bb.length - WordLen = offset + 1004 := by
        rw [hbb, show WordLen = 4 from rfl]
        omega
      obtain ⟨cnt, m, hc1, hcl, hm4, hm11, heq, hrest⟩ :=
        ih ext (buf ++ bb) (offset + 1004) j₀ F
          (fun p hp => hbl p (by simp [hp])) hF2
          (by omega) (by omega) (by omega) (by omega) hcomp hocc hmin
      refine ⟨cnt + 1, m, by omega, by simp [List.length_cons]; omega, hm4, hm11, ?_, ?_⟩
      · rw [List.cons_append, fillPk_miss (bl ++ ext) hnone, hoff, List.drop_succ_cons,
          heq]
      · rw [List.drop_succ_cons]
        exact hrest

/-- `nextPacket_ok` on a block list with an arbitrary extension. -/
theorem nextPacket_ok_ext (blocksA ext : List (Bool × List Nat))
    (rest F : List Nat) (L : Nat)
    (hbl : ∀ p ∈ blocksA, p.1 = false ∧ p.2.length = 1008)
    (hF : rest ++ concatBodies blocksA = F)
    (hr : rest.length ≤ 1011)
    (hL : 2016 ≤ L)
    (hocc0 : isSubAt Word F 0)
    (hocc : isSubAt Word F L)
    (hmin : ∀ j, 1 ≤ j → j < L → ¬ isSubAt Word F j)
    (hcomp : L + 4 ≤ F.length) :
    ∃ cnt m, 1 ≤ cnt ∧ cnt ≤ blocksA.length ∧ 4 ≤ m ∧ m ≤ 1011 ∧
      nextPacket (blocksA ++ ext) rest =
        .okN (F.take L) ((F.drop L).take m) (blocksA.drop cnt ++ ext) ∧
      (F.drop L).take m ++ concatBodies (blocksA.drop cnt) = F.drop L := by
  cases blocksA with
  | nil =>
    rw [concatBodies_nil, List.append_nil] at hF
    have := congrArg List.length hF
    omega
  | cons hd bl =>
    obtain ⟨e, bb⟩ := hd
    have hhd := hbl (e, bb) (by simp)
    have he : e = false := hhd.1
    have hbb : bb.length = 1008 := hhd.2
    subst he
    have hF2 : F = (rest ++ bb) ++ concatBodies bl := by
      rw [← hF, concatBodies_cons, List.append_assoc]
    have hlen2 : (rest ++ bb).length = rest.length + 1008 := by
      rw [List.length_append, hbb]
    have htake : F.take (rest ++ bb).length = rest ++ bb := by
      rw [hF2]
      exact List.take_left _ _
    have hsync : (rest ++ bb).take WordLen = Word := by
      rw [show WordLen = 4 from rfl, ← htake, List.take_take,
        show min 4 (rest ++ bb).length = 4 by omega]
      unfold isSubAt at hocc0
      rw [List.drop_zero, word_length] at hocc0
      exact hocc0
    have hsearch := searchPk_syncexit 0 (bl ++ ext) hsync
    obtain ⟨cnt, m, hc1, hcl, hm4, hm11, hfill, hrest⟩ :=
      fillPk_finds_ext bl ext (rest ++ bb) 4 L F
        (fun p hp => hbl p (by simp [hp])) hF2
        (by omega) (by omega) (by omega) (by omega) hcomp hocc
        (fun j hj hjL => hmin j (by omega) hjL)
    refine ⟨cnt + 1, m, by omega, by simp [List.length_cons]; omega, hm4, hm11, ?_, ?_⟩
    · rw [List.cons_append]
      simp only [nextPacket, hsearch, show WordLen = 4 from rfl, hfill,
        List.drop_succ_cons]
    · rw [List.drop_succ_cons]
      exact hrest

/-- A `nextPacket` call that locates a sync word but never sees another
one: the fill loop exhausts the reader. -/
theorem nextPacket_scan_eof (blocks : List (Bool × List Nat)) (F : List Nat) (g₀ : Nat)
    (hbl : ∀ p ∈ blocks, p.1 = false ∧ p.2.length = 1008)
    (hF : concatBodies blocks = F)
    (hg1 : 1 ≤ g₀)
    (hmin1 : ∀ j, j < g₀ → ¬ isSubAt Word F j)
    (hocc1 : isSubAt Word F g₀)
    (hno2 : ∀ j, g₀ < j → ¬ isSubAt Word F j)
    (hcomp : g₀ + 4 ≤ F.length) :
    nextPacket blocks [] = .eofN := by
  obtain ⟨c1, m1, hc11, hc1l, hm14, hm111, hsearch, hrest1⟩ :=
    searchPk_scan blocks [] 0 g₀ F hbl (by rw [List.nil_append, hF])
      (by omega) (by simp) (by simp) (by omega) hg1 hocc1 hmin1
  have hfill := fillPk_eof (blocks.drop c1) ((F.drop g₀).take m1) 4 (F.drop g₀)
    (fun p hp => hbl p (List.mem_of_mem_drop hp)) hrest1.symm (by omega)
    (fun j hj hcon => by
      rw [isSubAt_drop] at hcon
      exact hno2 (g₀ + j) (by omega) hcon)
  simp only [nextPacket, hsearch, show WordLen = 4 from rfl, hfill]

/-- After an `ErrSkip`, the reader resynchronizes: the left-over tail
`gb` of the interrupted packet is skipped as garbage, the next packet
is emitted intact, and the stream continues as usual (losing only the
final packet to the end of stream). -/
theorem hrdlRun_resync (Post : List (List Nat)) (blocksB : List (Bool × List Nat))
    (gb : List Nat) (pad fuel : Nat)
    (hw : ∀ P ∈ Post, wfPacket P) (hne : Post ≠ [])
    (hbl : ∀ p ∈ blocksB, p.1 = false ∧ p.2.length = 1008)
    (hB : concatBodies blocksB = gb ++ streamBytes Post pad)
    (hg1 : 1 ≤ gb.length)
    (hgbno : ∀ j, j < gb.length → ¬ isSubAt Word (gb ++ streamBytes Post pad) j)
    (hfuel : blocksB.length < fuel) :
    hrdlRun fuel blocksB [] = Post.dropLast := by
  cases Post with
  | nil => exact absurd rfl hne
  | cons Pn Post2 =>
    cases fuel with
    | zero => omega
    | succ f =>
      have hwPn := hw Pn (by simp)
      have h8n := wf_len8 hwPn
      have hLn : 2016 ≤ (stuffP Pn).length := by
        have := stuffP_length_ge h8n
        have hsz := hwPn.2.2.2.2.2.1
        omega
      have hdropg : (gb ++ streamBytes (Pn :: Post2) pad).drop gb.length =
          streamBytes (Pn :: Post2) pad := List.drop_left _ _
      have hlenF : (gb ++ streamBytes (Pn :: Post2) pad).length =
          gb.length + (streamBytes (Pn :: Post2) pad).length := List.length_append _ _
      have hstreamlen : (stuffP Pn).length ≤ (streamBytes (Pn :: Post2) pad).length := by
        show _ ≤ (stuffP Pn ++ streamBytes Post2 pad).length
        rw [List.length_append]
        omega
      have hocc1 : isSubAt Word (gb ++ streamBytes (Pn :: Post2) pad) gb.length := by
        have h := isSubAt_append_shift _ gb _ (stream_occ0 Pn Post2 pad hwPn)
        rw [Nat.add_zero] at h
        exact h
      cases Post2 with
      | nil =>
        have heof := nextPacket_scan_eof blocksB (gb ++ streamBytes [Pn] pad)
          gb.length hbl hB hg1 hgbno hocc1
          (fun j hj hcon => by
            have h2 := isSubAt_of_append_right hcon (by omega)
            exact stream_noOcc_last Pn pad hwPn (j - gb.length) (by omega) h2)
          (by omega)
        simp only [hrdlRun, heof]
        rfl
      | cons Pm Post3 =>
        have hwPm := hw Pm (by simp)
        have hlen3 : 2016 ≤ (streamBytes (Pm :: Post3) pad).length := by
          have := stuffP_length_ge (wf_len8 hwPm)
          have hsz := hwPm.2.2.2.2.2.1
          show 2016 ≤ (stuffP Pm ++ streamBytes Post3 pad).length
          rw [List.length_append]
          omega
        have hlen2 : (streamBytes (Pn :: Pm :: Post3) pad).length =
            (stuffP Pn).length + (streamBytes (Pm :: Post3) pad).length := by
          show (stuffP Pn ++ streamBytes (Pm :: Post3) pad).length = _
          rw [List.length_append]
        obtain ⟨cnt, m, hc1, hcl, hm4, hm11, hnp, hrest2⟩ :=
          nextPacket_scan blocksB (gb ++ streamBytes (Pn :: Pm :: Post3) pad)
            gb.length (stuffP Pn).length hbl hB hg1 hLn hgbno hocc1
            (fun j hj1 hj2 hcon => by
              have h2 := isSubAt_of_append_right hcon (by omega)
              exact stream_noOcc_mid Pn (Pm :: Post3) pad hwPn
                (fun Q hQ => hw Q (by simp [hQ]))
                (j - gb.length) (by omega) (by omega) h2)
            (isSubAt_append_shift _ gb _ (stream_occL Pn Pm Post3 pad hwPm))
            (by omega)
        have htk : ((gb ++ streamBytes (Pn :: Pm :: Post3) pad).drop gb.length).take
            (stuffP Pn).length = stuffP Pn := by
          rw [hdropg]
          exact streamBytes_take_head Pn (Pm :: Post3) pad
        have hust : UnstuffBytes (((gb ++ streamBytes (Pn :: Pm :: Post3) pad).drop
            gb.length).take (stuffP Pn).length) = some Pn := by
          rw [htk]
          exact unstuff_stuffP h8n hwPn.2.2.2.1 hwPn.2.2.2.2.1 hwPn.2.2.2.2.2.2
        simp only [hrdlRun, hnp, hust]
        rw [show (Pn :: Pm :: Post3).dropLast = Pn :: (Pm :: Post3).dropLast from rfl]
        congr 1
        have hdd : (gb ++ streamBytes (Pn :: Pm :: Post3) pad).drop
            (gb.length + (stuffP Pn).length) = streamBytes (Pm :: Post3) pad := by
          rw [← List.drop_drop, hdropg]
          exact streamBytes_drop_head Pn (Pm :: Post3) pad
        rw [hdd] at hrest2
        apply hrdlRun_all (Pm :: Post3) (blocksB.drop cnt) _ pad f
          (fun Q hQ => hw Q (by simp [hQ]))
          (fun p hp => hbl p (List.mem_of_mem_drop hp))
          (by rw [hdd]; exact hrest2)
          (by rw [hdd, List.length_take]; omega)
          (by have := List.length_drop cnt blocksB; omega)
          (by simp)

/-- The full loss-containment run: the packets of `Pre` are emitted
normally; while packet `Pi` is being filled a missing-cadu read aborts
it with `ErrSkip`; the reader then resynchronizes on the next sync word
and emits the packets of `Post` (except the final one, lost to the end
of stream). -/
theorem hrdlRun_c3 : ∀ (Pre : List (List Nat)) (Pi : List Nat) (Post : List (List Nat))
    (blocksA blocksB : List (Bool × List Nat)) (bz gb rest : List Nat)
    (pad gA fuel : Nat),
    (∀ P ∈ Pre, wfPacket P) → wfPacket Pi → (∀ P ∈ Post, wfPacket P) → Post ≠ [] →
    (∀ p ∈ blocksA, p.1 = false ∧ p.2.length = 1008) →
    (∀ p ∈ blocksB, p.1 = false ∧ p.2.length = 1008) →
    rest ++ concatBodies blocksA = (streamBytes (Pre ++ [Pi]) 0).take gA →
    rest.length ≤ 1011 →
    (streamBytes Pre 0).length + 1012 ≤ gA →
    gA ≤ (streamBytes (Pre ++ [Pi]) 0).length →
    concatBodies blocksB = gb ++ streamBytes Post pad →
    1 ≤ gb.length →
    (∀ j, j < gb.length → ¬ isSubAt Word (gb ++ streamBytes Post pad) j) →
    (blocksA ++ (true, bz) :: blocksB).length < fuel →
    hrdlRun fuel (blocksA ++ (true, bz) :: blocksB) rest = Pre ++ Post.dropLast := by
  intro Pre
  induction Pre with
  | nil =>
    intro Pi Post blocksA blocksB bz gb rest pad gA fuel
    intro hwPre hwPi hwPost hPostne hblA hblB hpre hrest hcov hgAtot hB hg1 hgbno hfuel
    simp only [List.nil_append] at hpre hgAtot
    have hsPi : streamBytes [Pi] 0 = stuffP Pi := by
      show stuffP Pi ++ List.replicate 0 0 = stuffP Pi
      simp
    rw [hsPi] at hpre hgAtot
    have hcov0 : 1012 ≤ gA := by
      have : (streamBytes ([] : List (List Nat)) 0).length = 0 := rfl
      omega
    cases blocksA with
    | nil =>
      exfalso
      rw [concatBodies_nil, List.append_nil] at hpre
      have := congrArg List.length hpre
      rw [List.length_take] at this
      omega
    | cons hd good =>
      obtain ⟨e, bb1⟩ := hd
      have hhd := hblA (e, bb1) (by simp)
      have he : e = false := hhd.1
      have hbb1 : bb1.length = 1008 := hhd.2
      subst he
      have hG : rest ++ bb1 ++ concatBodies good = (stuffP Pi).take gA := by
        rw [List.append_assoc, ← concatBodies_cons false bb1 good]
        exact hpre
      have hocc0 : isSubAt Word ((stuffP Pi).take gA) 0 := by
        apply isSubAt_take (stuffP_occ0 hwPi)
        rw [word_length]
        omega
      have hno : ∀ j, 4 ≤ j → ¬ isSubAt Word ((stuffP Pi).take gA) j := by
        intro j hj hcon
        exact stuffP_noOcc_mid hwPi j (by omega) (isSubAt_of_take hcon word_ne_nil)
      have hskip := nextPacket_skip good blocksB bb1 bz rest ((stuffP Pi).take gA)
        hbb1 (fun p hp => hblA p (by simp [hp])) hG hocc0 hno
      cases fuel with
      | zero => exact absurd hfuel (by omega)
      | succ f =>
        simp only [hrdlRun, hskip]
        rw [List.nil_append]
        apply hrdlRun_resync Post blocksB gb pad f hwPost hPostne hblB hB hg1 hgbno
        have h1 := List.length_append ((false, bb1) :: good) ((true, bz) :: blocksB)
        rw [h1, List.length_cons, List.length_cons] at hfuel
        omega
  | cons P Pre2 ih =>
    intro Pi Post blocksA blocksB bz gb rest pad gA fuel
    intro hwPre hwPi hwPost hPostne hblA hblB hpre hrest hcov hgAtot hB hg1 hgbno hfuel
    simp only [List.cons_append] at hpre hgAtot
    have hwP := hwPre P (by simp)
    have h8P := wf_len8 hwP
    have hLP : 2016 ≤ (stuffP P).length := by
      have := stuffP_length_ge h8P
      have hsz := hwP.2.2.2.2.2.1
      omega
    have hwAll : ∀ Q ∈ Pre2 ++ [Pi], wfPacket Q := by
      intro Q hQ
      rcases List.mem_append.mp hQ with h | h
      · exact hwPre Q (by simp [h])
      · rw [List.mem_singleton.mp h]
        exact hwPi
    have hlen1 : (streamBytes (P :: (Pre2 ++ [Pi])) 0).length =
        (stuffP P).length + (streamBytes (Pre2 ++ [Pi]) 0).length := by
      show (stuffP P ++ streamBytes (Pre2 ++ [Pi]) 0).length = _
      rw [List.length_append]
    have hlenPre : (streamBytes (P :: Pre2) 0).length =
        (stuffP P).length + (streamBytes Pre2 0).length := by
      show (stuffP P ++ streamBytes Pre2 0).length = _
      rw [List.length_append]
    rw [hlenPre] at hcov
    have hlenF : ((streamBytes (P :: (Pre2 ++ [Pi])) 0).take gA).length = gA := by
      rw [List.length_take]
      omega
    obtain ⟨Pn, Ps2, hPn, hwPn⟩ :
        ∃ Pn Ps2, Pre2 ++ [Pi] = Pn :: Ps2 ∧ wfPacket Pn := by
      cases Pre2 with
      | nil => exact ⟨Pi, [], rfl, hwPi⟩
      | cons Q Qs => exact ⟨Q, Qs ++ [Pi], rfl, hwPre Q (by simp)⟩
    have hocc0F : isSubAt Word ((streamBytes (P :: (Pre2 ++ [Pi])) 0).take gA) 0 := by
      apply isSubAt_take (stream_occ0 P (Pre2 ++ [Pi]) 0 hwP)
      rw [word_length]
      omega
    have hoccL : isSubAt Word ((streamBytes (P :: (Pre2 ++ [Pi])) 0).take gA)
        (stuffP P).length := by
      apply isSubAt_take
      · rw [hPn]
        exact stream_occL P Pn Ps2 0 hwPn
      · rw [word_length]
        omega
    have hminF : ∀ j, 1 ≤ j → j < (stuffP P).length →
        ¬ isSubAt Word ((streamBytes (P :: (Pre2 ++ [Pi])) 0).take gA) j := by
      intro j hj hjL hcon
      exact stream_noOcc_mid P (Pre2 ++ [Pi]) 0 hwP hwAll j hj hjL
        (isSubAt_of_take hcon word_ne_nil)
    obtain ⟨cnt, m, hc1, hcl, hm4, hm11, hnp, hrest2⟩ :=
      nextPacket_ok_ext blocksA ((true, bz) :: blocksB) rest
        ((streamBytes (P :: (Pre2 ++ [Pi])) 0).take gA) (stuffP P).length
        hblA hpre hrest hLP hocc0F hoccL hminF (by rw [hlenF]; omega)
    have hFtake : ((streamBytes (P :: (Pre2 ++ [Pi])) 0).take gA).take
        (stuffP P).length = stuffP P := by
      rw [List.take_take, min_eq_left (by omega)]
      exact streamBytes_take_head P (Pre2 ++ [Pi]) 0
    have hust : UnstuffBytes (((streamBytes (P :: (Pre2 ++ [Pi])) 0).take gA).take
        (stuffP P).length) = some P := by
      rw [hFtake]
      exact unstuff_stuffP h8P hwP.2.2.2.1 hwP.2.2.2.2.1 hwP.2.2.2.2.2.2
    have hFdrop : ((streamBytes (P :: (Pre2 ++ [Pi])) 0).take gA).drop
        (stuffP P).length =
        (streamBytes (Pre2 ++ [Pi]) 0).take (gA - (stuffP P).length) := by
      rw [List.drop_take]
      congr 1
      exact streamBytes_drop_head P (Pre2 ++ [Pi]) 0
    cases fuel with
    | zero => exact absurd hfuel (by omega)
    | succ f =>
      simp only [hrdlRun, hnp, hust]
      rw [show (P :: Pre2) ++ Post.dropLast = P :: (Pre2 ++ Post.dropLast) from rfl]
      congr 1
      rw [hFdrop] at hrest2
      rw [hFdrop]
      have hlenext := List.length_append blocksA ((true, bz) :: blocksB)
      have hlenext2 := List.length_append (blocksA.drop cnt) ((true, bz) :: blocksB)
      apply ih Pi Post (blocksA.drop cnt) blocksB bz gb _ pad
        (gA - (stuffP P).length) f
        (fun Q hQ => hwPre Q (by simp [hQ]))
        hwPi hwPost hPostne
        (fun p hp => hblA p (List.mem_of_mem_drop hp))
        hblB
        hrest2
        (by rw [List.length_take]; omega)
        (by omega)
        (by omega)
        hB hg1 hgbno
        (by
          rw [hlenext2, List.length_cons]
          rw [hlenext, List.length_cons] at hfuel
          have := List.length_drop cnt blocksA
          omega)

/-- The CADU stream with frame `r` removed: frames `0 … r-1` keep
their consecutive sequence numbers, then the stream resumes at frame
`r+1` (sequence `c0+r+1`), exposing a sequence jump of one frame. -/
def c3Frames (c0 r : Nat) (bodies : List (List Nat)) : List (List Nat) :=
  c1Frames c0 (bodies.take r) ++
    mkCadu ((c0 + r + 1) % 16777216) (bodies.getD (r + 1) []) ::
      mkFramesFrom ((c0 + r + 1) % 16777216) (bodies.drop (r + 2))

theorem vcduBlocksAux_append (counter : Nat) (fs gs : List (List Nat)) :
    vcduBlocksAux counter (fs ++ gs) =
      ((vcduBlocksAux counter fs).1 ++
          (vcduBlocksAux (vcduBlocksAux counter fs).2 gs).1,
        (vcduBlocksAux (vcduBlocksAux counter fs).2 gs).2) := by
  induction fs generalizing counter with
  | nil => simp [vcduBlocksAux]
  | cons f fs ih =>
    simp only [List.cons_append, vcduBlocksAux, List.append_eq]
    rw [ih]

theorem vcduBlocksAux_c1Frames (bodies : List (List Nat)) (c0 : Nat)
    (hne : bodies ≠ []) (hc0 : c0 < 16777216)
    (hb : ∀ b ∈ bodies, b.length = 1008) :
    vcduBlocksAux 0 (c1Frames c0 bodies) =
      (bodies.map (fun b => (false, b)), (c0 + (bodies.length - 1)) % 16777216) := by
  cases bodies with
  | nil => exact absurd rfl hne
  | cons b bs =>
    have hb1 : b.length = 1008 := hb b (by simp)
    have hread : readVcdu 0 (mkCadu c0 b) = (c0, none, b) := by
      rw [show mkCadu c0 b = mkCaduWithMagic Magic c0 b from rfl,
        readVcdu_mkCadu Magic 0 c0 b rfl hb1 hc0, gapErrOf_first hc0]
    show vcduBlocksAux 0 (mkCadu c0 b :: mkFramesFrom c0 bs) = _
    simp only [vcduBlocksAux, hread,
      vcduBlocksAux_consec bs c0 hc0 (fun x hx => hb x (by simp [hx]))]
    simp only [List.map_cons, List.length_cons, Nat.add_sub_cancel]

theorem getD_mem_of_lt {bodies : List (List Nat)} {k : Nat}
    (hk : k < bodies.length) : bodies.getD k [] ∈ bodies := by
  cases hq : bodies.get? k with
  | none =>
    rw [List.get?_eq_none] at hq
    omega
  | some v =>
    have hmem := List.get?_mem hq
    rw [List.getD_eq_get?, hq]
    exact hmem

/-- Reading the stream with frame `r` removed: frames before the gap
read unflagged; the frame after the gap is flagged with the
missing-cadu error (its body is still delivered); frames after it read
unflagged again — provided the frame before the gap does not carry
sequence 0, which would suppress the error. -/
theorem vcduBlocks_c3Frames (bodies : List (List Nat)) (c0 r : Nat)
    (hc0 : c0 < 16777216) (hr1 : 1 ≤ r) (hrm : r + 2 ≤ bodies.length)
    (hb : ∀ b ∈ bodies, b.length = 1008)
    (hp0 : (c0 + r - 1) % 16777216 ≠ 0) :
    vcduBlocks 0 (c3Frames c0 r bodies) =
      (bodies.take r).map (fun b => (false, b)) ++
        (true, bodies.getD (r + 1) []) ::
          (bodies.drop (r + 2)).map (fun b => (false, b)) := by
  have htl : (bodies.take r).length = r := by
    rw [List.length_take]
    omega
  have htne : bodies.take r ≠ [] := by
    intro hcon
    rw [hcon] at htl
    simp at htl
    omega
  have hpre := vcduBlocksAux_c1Frames (bodies.take r) c0 htne hc0
    (fun x hx => hb x (List.mem_of_mem_take hx))
  rw [htl] at hpre
  have hblen : (bodies.getD (r + 1) []).length = 1008 :=
    hb _ (getD_mem_of_lt (by omega))
  have hplt : (c0 + (r - 1)) % 16777216 < 16777216 := Nat.mod_lt _ (by omega)
  have hslt : (c0 + r + 1) % 16777216 < 16777216 := Nat.mod_lt _ (by omega)
  have hseq : (c0 + r + 1) % 16777216 =
      ((c0 + (r - 1)) % 16777216 + (1 + 1)) % 16777216 := by
    rw [Nat.mod_add_mod]
    congr 1
    omega
  have hp0x : (c0 + (r - 1)) % 16777216 ≠ 0 := by
    have h : c0 + (r - 1) = c0 + r - 1 := by omega
    rw [h]
    exact hp0
  have hgap := @gapErrOf_gap ((c0 + (r - 1)) % 16777216)
    ((c0 + r + 1) % 16777216) 1 hplt (le_refl 1) (by omega) hp0x hseq
  have hflag : readVcdu ((c0 + (r - 1)) % 16777216)
      (mkCadu ((c0 + r + 1) % 16777216) (bodies.getD (r + 1) [])) =
      ((c0 + r + 1) % 16777216,
        some (.missing ((c0 + (r - 1)) % 16777216) ((c0 + r + 1) % 16777216)),
        bodies.getD (r + 1) []) := by
    rw [readVcdu_mkCadu_magic _ _ _ hblen hslt, hgap.1]
  unfold vcduBlocks c3Frames
  rw [vcduBlocksAux_append, hpre]
  simp only [vcduBlocksAux, hflag,
    vcduBlocksAux_consec (bodies.drop (r + 2)) ((c0 + r + 1) % 16777216) hslt
      (fun x hx => hb x (List.mem_of_mem_drop hx))]

theorem concatBodies_append (A B : List (Bool × List Nat)) :
    concatBodies (A ++ B) = concatBodies A ++ concatBodies B := by
  unfold concatBodies
  rw [List.map_append, List.flatten_append]

theorem chunks1008_take : ∀ (r m : Nat) (l : List Nat), r ≤ m →
    concatBodies (((chunks1008 m l).take r).map (fun b => (false, b))) =
      l.take (1008 * r) := by
  intro r
  induction r with
  | zero => intro m l _; rfl
  | succ r ih =>
    intro m l hrm
    cases m with
    | zero => omega
    | succ m2 =>
      show concatBodies (((l.take 1008 :: chunks1008 m2 (l.drop 1008)).take
          (r + 1)).map (fun b => (false, b))) = l.take (1008 * (r + 1))
      rw [List.take_succ_cons, List.map_cons, concatBodies_cons,
        ih m2 (l.drop 1008) (by omega),
        show 1008 * (r + 1) = 1008 + 1008 * r by omega, List.take_add]

theorem chunks1008_drop (m r : Nat) (l : List Nat) (hr : r ≤ m)
    (hl : l.length = 1008 * m) :
    concatBodies (((chunks1008 m l).drop r).map (fun b => (false, b))) =
      l.drop (1008 * r) := by
  have h2 := (chunks1008_spec m l hl).2.1
  have hsplit : (chunks1008 m l).map (fun b => ((false : Bool), b)) =
      ((chunks1008 m l).take r).map (fun b => (false, b)) ++
        ((chunks1008 m l).drop r).map (fun b => (false, b)) := by
    rw [← List.map_append, List.take_append_drop]
  rw [hsplit, concatBodies_append, chunks1008_take r m l hr] at h2
  have h3 : l.take (1008 * r) ++ concatBodies (((chunks1008 m l).drop r).map
      (fun b => (false, b))) = l.take (1008 * r) ++ l.drop (1008 * r) := by
    rw [h2, List.take_append_drop]
  exact List.append_cancel_left h3

theorem streamBytes_append (A B : List (List Nat)) (pad : Nat) :
    streamBytes (A ++ B) pad = streamBytes A 0 ++ streamBytes B pad := by
  induction A with
  | nil => rfl
  | cons P A ih =>
    show stuffP P ++ streamBytes (A ++ B) pad =
      (stuffP P ++ streamBytes A 0) ++ streamBytes B pad
    rw [ih, List.append_assoc]

/-- The severed tail of an interrupted packet holds no sync word: any
complete occurrence inside it would be one inside `stuffP Pi` past
offset 0, and a straddling one is ruled out byte by byte. -/
theorem garbage_noOcc (Pi : List Nat) (Post : List (List Nat)) (pad d : Nat)
    (hwPi : wfPacket Pi) (hwPost : ∀ Q ∈ Post, wfPacket Q) (hd1 : 1 ≤ d) :
    ∀ j, j < ((stuffP Pi).drop d).length →
      ¬ isSubAt Word ((stuffP Pi).drop d ++ streamBytes Post pad) j := by
  intro j hj hcon
  by_cases hcomp : j + 4 ≤ ((stuffP Pi).drop d).length
  · have h1 : isSubAt Word ((stuffP Pi).drop d) j :=
      isSubAt_in_left hcon (by rw [word_length]; omega)
    have h2 : isSubAt Word (stuffP Pi) (d + j) := isSubAt_drop.mp h1
    exact stuffP_noOcc_mid hwPi (d + j) (by omega) h2
  · push_neg at hcomp
    have hk : ((stuffP Pi).drop d).length - j < Word.length := by
      rw [word_length]
      omega
    have hx := isSubAt_get? hcon hk
    rw [show j + (((stuffP Pi).drop d).length - j) = ((stuffP Pi).drop d).length
      by omega] at hx
    rw [List.get?_append_right (le_refl _), Nat.sub_self] at hx
    rcases streamBytes_get0 Post pad hwPost with hnil | h0 | h248
    · have hb := isSubAt_bound word_ne_nil hcon
      rw [List.length_append, hnil, word_length, List.length_nil] at hb
      omega
    · rw [h0] at hx
      have hd13 : ((stuffP Pi).drop d).length - j = 1 ∨
          ((stuffP Pi).drop d).length - j = 2 ∨
          ((stuffP Pi).drop d).length - j = 3 := by
        rw [word_length] at hk
        omega
      rcases hd13 with h | h | h <;> rw [h] at hx <;> exact absurd hx (by decide)
    · rw [h248] at hx
      have hd13 : ((stuffP Pi).drop d).length - j = 1 ∨
          ((stuffP Pi).drop d).length - j = 2 ∨
          ((stuffP Pi).drop d).length - j = 3 := by
        rw [word_length] at hk
        omega
      rcases hd13 with h | h | h <;> rw [h] at hx <;> exact absurd hx (by decide)

/-- Removing the CADU at index `r` — lying strictly inside the
encoding of `Pi`, at least two frames past `Pi`'s sync word (`hA`) and
with the following frame still inside `Pi` (`hC`) — loses exactly `Pi`
and the final packet; every other packet, in particular the one right
after `Pi`, is emitted intact. -/
theorem hrdlRun_removed
    (Pre : List (List Nat)) (Pi : List Nat) (Post : List (List Nat))
    (pad m r c0 : Nat)
    (hwPre : ∀ P ∈ Pre, wfPacket P) (hwPi : wfPacket Pi)
    (hwPost : ∀ P ∈ Post, wfPacket P) (hPost : Post ≠ [])
    (hc0 : c0 < 16777216) (hr1 : 1 ≤ r)
    (hp0 : (c0 + r - 1) % 16777216 ≠ 0)
    (hm : (streamBytes (Pre ++ Pi :: Post) pad).length = 1008 * m)
    (hA : (streamBytes Pre 0).length + 4 ≤ 1008 * (r - 1))
    (hC : 1008 * (r + 2) < (streamBytes Pre 0).length + (stuffP Pi).length) :
    hrdlRun m (vcduBlocks 0 (c3Frames c0 r
        (chunks1008 m (streamBytes (Pre ++ Pi :: Post) pad)))) [] =
      Pre ++ Post.dropLast := by
  set S := streamBytes (Pre ++ Pi :: Post) pad with hS
  have hdec : S = streamBytes (Pre ++ [Pi]) 0 ++ streamBytes Post pad := by
    rw [hS, show Pre ++ Pi :: Post = (Pre ++ [Pi]) ++ Post by simp, streamBytes_append]
  have hsingle : streamBytes [Pi] 0 = stuffP Pi := by
    show stuffP Pi ++ List.replicate 0 0 = stuffP Pi
    simp
  have hdec2 : streamBytes (Pre ++ [Pi]) 0 = streamBytes Pre 0 ++ stuffP Pi := by
    rw [streamBytes_append, hsingle]
  have hLpreLi : (streamBytes (Pre ++ [Pi]) 0).length =
      (streamBytes Pre 0).length + (stuffP Pi).length := by
    rw [hdec2, List.length_append]
  have hrm : r + 2 < m := by
    have h1 : (streamBytes (Pre ++ [Pi]) 0).length ≤ S.length := by
      rw [hdec, List.length_append]
      omega
    omega
  obtain ⟨hb1008, hcb, hclen⟩ := chunks1008_spec m S hm
  have hblocks := vcduBlocks_c3Frames (chunks1008 m S) c0 r hc0 hr1
    (by rw [hclen]; omega) hb1008 hp0
  rw [hblocks]
  have hCA : concatBodies (((chunks1008 m S).take r).map (fun b => (false, b))) =
      S.take (1008 * r) := chunks1008_take r m S (by omega)
  have hCB : concatBodies (((chunks1008 m S).drop (r + 2)).map (fun b => (false, b))) =
      S.drop (1008 * (r + 2)) := chunks1008_drop m (r + 2) S (by omega) hm
  set d := 1008 * (r + 2) - (streamBytes Pre 0).length with hd
  have hd1 : 1 ≤ d := by omega
  have hdLi : d < (stuffP Pi).length := by omega
  have hdrop : S.drop (1008 * (r + 2)) = (stuffP Pi).drop d ++ streamBytes Post pad := by
    rw [hdec, hdec2, List.append_assoc,
      show 1008 * (r + 2) = (streamBytes Pre 0).length + d by omega,
      List.drop_append, List.drop_append_of_le_length (by omega)]
  have hgblen : ((stuffP Pi).drop d).length = (stuffP Pi).length - d :=
    List.length_drop _ _
  have hpre : ([] : List Nat) ++ concatBodies (((chunks1008 m S).take r).map
      (fun b => (false, b))) = (streamBytes (Pre ++ [Pi]) 0).take (1008 * r) := by
    rw [List.nil_append, hCA, hdec, List.take_append_of_le_length (by omega)]
  apply hrdlRun_c3 Pre Pi Post _ _ _ ((stuffP Pi).drop d) _ pad (1008 * r) m
    hwPre hwPi hwPost hPost
    (by
      intro p hp
      rw [List.mem_map] at hp
      obtain ⟨b, hbmem, hpb⟩ := hp
      exact ⟨by rw [← hpb], by rw [← hpb]; exact hb1008 b (List.mem_of_mem_take hbmem)⟩)
    (by
      intro p hp
      rw [List.mem_map] at hp
      obtain ⟨b, hbmem, hpb⟩ := hp
      exact ⟨by rw [← hpb], by rw [← hpb]; exact hb1008 b (List.mem_of_mem_drop hbmem)⟩)
    hpre
    (by simp)
    (by omega)
    (by omega)
    (by rw [hCB, hdrop])
    (by omega)
    (garbage_noOcc Pi Post pad d hwPi hwPost hd1)
    (by
      rw [List.length_append, List.length_cons, List.length_map, List.length_map,
        List.length_take, List.length_drop, hclen]
      omega)

/-- A simple well-formed packet: sync word, length field 2020 (total
2032 bytes), and a constant fill byte `v`. -/
def simplePk (v : Nat) : List Nat :=
  Word ++ [0xe4, 0x07, 0, 0] ++ List.replicate 2024 v

theorem noOcc_of_byte_not_mem {pat l : List Nat} {k a : Nat}
    (hk : k < pat.length) (ha : pat.get? k = some a) (hmem : a ∉ l) :
    noOcc pat l := by
  intro i hcon
  have hx := isSubAt_get? hcon hk
  rw [ha] at hx
  exact hmem (List.get?_mem hx)

theorem simplePk_drop8 (v : Nat) :
    (simplePk v).drop 8 = List.replicate 2024 v := by
  have h : simplePk v = (Word ++ [0xe4, 0x07, 0, 0]) ++ List.replicate 2024 v := rfl
  rw [h, show (8 : Nat) = (Word ++ [0xe4, 0x07, 0, 0]).length from rfl,
    List.drop_left]

theorem stuffP_simplePk (v : Nat) (hv : v ≠ 248) :
    stuffP (simplePk v) = simplePk v := by
  have hnone : goIndex Word ((simplePk v).drop 8) = none := by
    apply goIndex_eq_none
    apply noOcc_of_byte_not_mem (show (0 : Nat) < Word.length by decide) rfl
    rw [simplePk_drop8]
    intro h
    rw [List.mem_replicate] at h
    exact hv h.2.symm
  unfold stuffP
  rw [stuffTail_none hnone, List.take_append_drop]

theorem simplePk_length (v : Nat) : (simplePk v).length = 2032 := by
  show (Word ++ [0xe4, 0x07, 0, 0] ++ List.replicate 2024 v).length = 2032
  rw [List.length_append, List.length_append, List.length_replicate]
  rfl

theorem mem_simplePk {a v : Nat} (h : a ∈ simplePk v) :
    a = 248 ∨ a = 46 ∨ a = 53 ∨ a = 83 ∨ a = 228 ∨ a = 7 ∨ a = 0 ∨ a = v := by
  have h2 : a ∈ Word ++ [0xe4, 0x07, 0, 0] ++ List.replicate 2024 v := h
  rw [List.mem_append, List.mem_append] at h2
  rcases h2 with (h3 | h3) | h3
  · simp only [Word, List.mem_cons, List.not_mem_nil, or_false] at h3
    tauto
  · simp only [List.mem_cons, List.not_mem_nil, or_false] at h3
    tauto
  · have := List.eq_of_mem_replicate h3
    tauto

theorem wf_simplePk (v : Nat) (hv1 : v ≠ 170) (hv2 : v ≠ 248) :
    wfPacket (simplePk v) := by
  have hlen := simplePk_length v
  refine ⟨rfl, rfl, rfl, ?_, ?_, by omega, ?_⟩
  · rw [show leU32At (simplePk v) 4 = 2020 from rfl, hlen]
  · apply noOcc_of_byte_not_mem (show (3 : Nat) < StuffMark.length by decide) rfl
    intro h
    rcases mem_simplePk h with h | h | h | h | h | h | h | h <;> omega
  · rw [stuffP_simplePk v hv2, hlen]
    omega

def c1P : List Nat := simplePk 1

def c1Q : List Nat := simplePk 2

/-- C1.  For every well-formed encoded stream built by stuffing and
concatenating packets `P₁ … Pₙ` into consecutive CADU bodies wrapped in
CADUs with consecutive sequence counters, the reassembly path (CADU
reader in body-only mode, `nextPacket` extraction, `UnstuffBytes`)
emits the buffers `P₁ … P_{n-1}` in order — every packet except the
last, which is lost because `nextPacket` only delimits a packet at the
next packet's sync word and the end of the stream surfaces as a read
error first.  (The claim that all `n` packets are emitted is refuted by
`hrdl_reassembly_cex`.) -/
theorem hrdl_reassembly (Ps : List (List Nat)) (pad m c0 : Nat)
    (hw : ∀ P ∈ Ps, wfPacket P) (hne : Ps ≠ [])
    (hc0 : c0 < 16777216)
    (hm : (streamBytes Ps pad).length = 1008 * m) :
    hrdlRun (m + 1)
      (vcduBlocks 0 (c1Frames c0 (chunks1008 m (streamBytes Ps pad)))) [] =
      Ps.dropLast := by
  obtain ⟨h1, h2, h3⟩ := chunks1008_spec m (streamBytes Ps pad) hm
  rw [vcduBlocks_c1Frames _ c0 hc0 h1]
  refine hrdlRun_all Ps _ [] pad (m + 1) hw ?_ ?_ (by simp) ?_ hne
  · intro p hp
    rw [List.mem_map] at hp
    obtain ⟨b, hbmem, hpb⟩ := hp
    exact ⟨by rw [← hpb], by rw [← hpb]; exact h1 b hbmem⟩
  · rw [List.nil_append, h2]
  · rw [List.length_map, h3]
    omega

theorem streamBytes_c1PQ :
    streamBytes [c1P, c1Q] 976 = simplePk 1 ++ (simplePk 2 ++ List.replicate 976 0) := by
  show stuffP c1P ++ (stuffP c1Q ++ List.replicate 976 0) = _
  rw [show c1P = simplePk 1 from rfl, show c1Q = simplePk 2 from rfl,
    stuffP_simplePk 1 (by omega), stuffP_simplePk 2 (by omega)]

/-- Witness for C1: a two-packet stream (five CADUs) emits exactly the
first packet. -/
theorem hrdl_reassembly_witness :
    hrdlRun 6 (vcduBlocks 0 (c1Frames 1 (chunks1008 5
      (streamBytes [c1P, c1Q] 976)))) [] = [c1P] := by
  have h := hrdl_reassembly [c1P, c1Q] 976 5 1
    (by
      intro P hP
      simp only [List.mem_cons, List.not_mem_nil, or_false] at hP
      rcases hP with h | h <;> rw [h]
      · exact wf_simplePk 1 (by omega) (by omega)
      · exact wf_simplePk 2 (by omega) (by omega))
    (by simp) (by omega)
    (by
      rw [streamBytes_c1PQ, List.length_append, List.length_append,
        List.length_replicate, simplePk_length, simplePk_length])
  exact h

/-- Counterexample to C1 as stated: a single-packet stream (three
CADUs) emits no buffer at all, not one. -/
theorem hrdl_reassembly_cex :
    hrdlRun 4 (vcduBlocks 0 (c1Frames 1 (chunks1008 3
      (streamBytes [c1P] 992)))) [] = [] ∧ ([] : List (List Nat)) ≠ [c1P] := by
  constructor
  · have hstream : streamBytes [c1P] 992 = simplePk 1 ++ List.replicate 992 0 := by
      show stuffP c1P ++ List.replicate 992 0 = _
      rw [show c1P = simplePk 1 from rfl, stuffP_simplePk 1 (by omega)]
    have hm : (streamBytes [c1P] 992).length = 1008 * 3 := by
      rw [hstream, List.length_append, List.length_replicate, simplePk_length]
    obtain ⟨h1, h2, h3⟩ := chunks1008_spec 3 (streamBytes [c1P] 992) hm
    rw [vcduBlocks_c1Frames _ 1 (by omega) h1]
    have h := hrdlRun_all [c1P]
      ((chunks1008 3 (streamBytes [c1P] 992)).map (fun b => (false, b))) [] 992 4
      (by
        intro P hP
        simp only [List.mem_cons, List.not_mem_nil, or_false] at hP
        rw [hP]
        exact wf_simplePk 1 (by omega) (by omega))
      (by
        intro p hp
        rw [List.mem_map] at hp
        obtain ⟨b, hbmem, hpb⟩ := hp
        exact ⟨by rw [← hpb], by rw [← hpb]; exact h1 b hbmem⟩)
      (by rw [List.nil_append, h2])
      (by simp)
      (by rw [List.length_map, h3]; omega)
      (by simp)
    exact h
  · simp

/-- A larger well-formed packet (6048 bytes, six CADU bodies), so that
a frame strictly inside its encoding can be removed. -/
def bigPk : List Nat := Word ++ [0x94, 0x17, 0, 0] ++ List.replicate 6040 5

theorem bigPk_drop8 : bigPk.drop 8 = List.replicate 6040 5 := by
  have h : bigPk = (Word ++ [0x94, 0x17, 0, 0]) ++ List.replicate 6040 5 := rfl
  rw [h, show (8 : Nat) = (Word ++ [0x94, 0x17, 0, 0]).length from rfl,
    List.drop_left]

theorem stuffP_bigPk : stuffP bigPk = bigPk := by
  have hnone : goIndex Word (bigPk.drop 8) = none := by
    apply goIndex_eq_none
    apply noOcc_of_byte_not_mem (show (0 : Nat) < Word.length by decide) rfl
    rw [bigPk_drop8]
    intro h
    rw [List.mem_replicate] at h
    omega
  unfold stuffP
  rw [stuffTail_none hnone, List.take_append_drop]

theorem bigPk_length : bigPk.length = 6048 := by
  show (Word ++ [0x94, 0x17, 0, 0] ++ List.replicate 6040 5).length = 6048
  rw [List.length_append, List.length_append, List.length_replicate]
  rfl

theorem mem_bigPk {a : Nat} (h : a ∈ bigPk) :
    a = 248 ∨ a = 46 ∨ a = 53 ∨ a = 83 ∨ a = 148 ∨ a = 23 ∨ a = 0 ∨ a = 5 := by
  have h2 : a ∈ Word ++ [0x94, 0x17, 0, 0] ++ List.replicate 6040 5 := h
  rw [List.mem_append, List.mem_append] at h2
  rcases h2 with (h3 | h3) | h3
  · simp only [Word, List.mem_cons, List.not_mem_nil, or_false] at h3
    tauto
  · simp only [List.mem_cons, List.not_mem_nil, or_false] at h3
    tauto
  · have := List.eq_of_mem_replicate h3
    tauto

theorem wf_bigPk : wfPacket bigPk := by
  refine ⟨rfl, rfl, rfl, ?_, ?_, ?_, ?_⟩
  · rw [show leU32At bigPk 4 = 6036 from rfl, bigPk_length]
  · apply noOcc_of_byte_not_mem (show (3 : Nat) < StuffMark.length by decide) rfl
    intro h
    rcases mem_bigPk h with h | h | h | h | h | h | h | h <;> omega
  · rw [bigPk_length]
    omega
  · rw [stuffP_bigPk, bigPk_length]
    omega

def c1R : List Nat := simplePk 3

/-- C3.  A stream of packets `Pre ++ Pi :: Post` is encoded into CADUs
with consecutive sequence counters; the CADU at index `r`, lying inside
the encoding of `Pi` (at least two frames past `Pi`'s sync word, with
the next frame still inside `Pi`), is removed.  The reassembler then
emits every packet except `Pi` and the final one: the flagged read
aborts `Pi` with `ErrSkip`, the reader resynchronizes on the next sync
word, and the packet after `Pi` is emitted intact; the last packet is
lost to the end of stream exactly as in an intact run.  (The claim's
count of n−1 emitted buffers is refuted by
`hrdl_loss_containment_cex`.) -/
theorem hrdl_loss_containment
    (Pre : List (List Nat)) (Pi : List Nat) (Post : List (List Nat))
    (pad m r c0 : Nat)
    (hwPre : ∀ P ∈ Pre, wfPacket P) (hwPi : wfPacket Pi)
    (hwPost : ∀ P ∈ Post, wfPacket P) (hPost : Post ≠ [])
    (hc0 : c0 < 16777216) (hr1 : 1 ≤ r)
    (hp0 : (c0 + r - 1) % 16777216 ≠ 0)
    (hm : (streamBytes (Pre ++ Pi :: Post) pad).length = 1008 * m)
    (hA : (streamBytes Pre 0).length + 4 ≤ 1008 * (r - 1))
    (hC : 1008 * (r + 2) < (streamBytes Pre 0).length + (stuffP Pi).length) :
    hrdlRun m (vcduBlocks 0 (c3Frames c0 r
        (chunks1008 m (streamBytes (Pre ++ Pi :: Post) pad)))) [] =
      Pre ++ Post.dropLast :=
  hrdlRun_removed Pre Pi Post pad m r c0 hwPre hwPi hwPost hPost hc0 hr1 hp0 hm hA hC

theorem streamBytes_bigQ :
    streamBytes [bigPk, c1Q] 992 = bigPk ++ (simplePk 2 ++ List.replicate 992 0) := by
  show stuffP bigPk ++ (stuffP c1Q ++ List.replicate 992 0) = _
  rw [stuffP_bigPk, show c1Q = simplePk 2 from rfl, stuffP_simplePk 2 (by omega)]

/-- Witness for C3: four packets, the CADU at index 4 removed from
inside the second one (`bigPk`): the run emits the first and third
packets — the third, right after the loss, intact. -/
theorem hrdl_loss_containment_witness :
    hrdlRun 13 (vcduBlocks 0 (c3Frames 1 4 (chunks1008 13
      (streamBytes [c1P, bigPk, c1Q, c1R] 960)))) [] = [c1P, c1Q] := by
  have hstream : streamBytes [c1P, bigPk, c1Q, c1R] 960 =
      simplePk 1 ++ (bigPk ++ (simplePk 2 ++ (simplePk 3 ++
        List.replicate 960 0))) := by
    show stuffP c1P ++ (stuffP bigPk ++ (stuffP c1Q ++ (stuffP c1R ++
      List.replicate 960 0))) = _
    rw [show c1P = simplePk 1 from rfl, show c1Q = simplePk 2 from rfl,
      show c1R = simplePk 3 from rfl, stuffP_simplePk 1 (by omega),
      stuffP_simplePk 2 (by omega), stuffP_simplePk 3 (by omega), stuffP_bigPk]
  have hpre1 : (streamBytes [c1P] 0).length = 2032 := by
    show (stuffP c1P ++ List.replicate 0 0).length = 2032
    rw [show c1P = simplePk 1 from rfl, stuffP_simplePk 1 (by omega),
      List.length_append, simplePk_length, List.length_replicate]
  have h := hrdl_loss_containment [c1P] bigPk [c1Q, c1R] 960 13 4 1
    (by
      intro P hP
      rw [List.mem_singleton.mp hP]
      exact wf_simplePk 1 (by omega) (by omega))
    wf_bigPk
    (by
      intro P hP
      simp only [List.mem_cons, List.not_mem_nil, or_false] at hP
      rcases hP with h | h <;> rw [h]
      · exact wf_simplePk 2 (by omega) (by omega)
      · exact wf_simplePk 3 (by omega) (by omega))
    (by simp) (by omega) (by omega) (by omega)
    (by
      rw [show ([c1P] ++ bigPk :: [c1Q, c1R] : List (List Nat)) =
        [c1P, bigPk, c1Q, c1R] from rfl, hstream]
      rw [List.length_append, List.length_append, List.length_append,
        List.length_append, List.length_replicate, simplePk_length,
        simplePk_length, simplePk_length, bigPk_length])
    (by rw [hpre1]; omega)
    (by
      rw [hpre1, stuffP_bigPk, bigPk_length]
      omega)
  exact h

/-- Counterexample to C3 as stated: two packets, one CADU removed from
inside the first; the claim promises n−1 = 1 emitted buffer (the
second packet), but the run emits none — the second packet, though
reassembled intact past the loss, is the final one and dies with the
end of stream. -/
theorem hrdl_loss_containment_cex :
    hrdlRun 9 (vcduBlocks 0 (c3Frames 1 2 (chunks1008 9
      (streamBytes [bigPk, c1Q] 992)))) [] = [] ∧
      ([] : List (List Nat)).length ≠
        ([bigPk, c1Q] : List (List Nat)).length - 1 := by
  constructor
  · have h := hrdlRun_removed [] bigPk [c1Q] 992 9 2 1
      (by intro P hP; simp at hP)
      wf_bigPk
      (by
        intro P hP
        rw [List.mem_singleton.mp hP]
        exact wf_simplePk 2 (by omega) (by omega))
      (by simp) (by omega) (by omega) (by omega)
      (by
        rw [show (([] : List (List Nat)) ++ bigPk :: [c1Q]) = [bigPk, c1Q] from rfl,
          streamBytes_bigQ]
        rw [List.length_append, List.length_append, List.length_replicate,
          simplePk_length, bigPk_length])
      (by
        rw [show (streamBytes ([] : List (List Nat)) 0).length = 0 from rfl]
        omega)
      (by
        rw [show (streamBytes ([] : List (List Nat)) 0).length = 0 from rfl,
          stuffP_bigPk, bigPk_length]
        omega)
    exact h
  · simp

end Erdle
